import Mathlib

/-!
Verification of the client-side caching / tag-suggestion core of the
achieve-diary application (a browser journaling tool).

Strings are modelled as lists of Unicode code points (`Str := List Nat`),
which is what a JavaScript string is at the level this code observes it.
`String.prototype.normalize("NFKC")` is modelled by a code-point-wise fold
covering the character ranges this program manipulates (the fullwidth ASCII
block U+FF01–U+FF5E and the ideographic space U+3000); `toLowerCase` by the
ASCII lowering; `localeCompare` by code-point lexicographic comparison;
`/\s/` by the JavaScript whitespace class restricted to the code points that
can arise here.  Mutable module state is modelled by explicit state records,
and array reference identity by a numeric allocation id carried next to the
array value.
-/

namespace AchieveDiary

/-- A JavaScript string: its list of code points. -/
abbrev Str := List Nat

/-- Model of the JS whitespace class used by the regular expressions. -/
def isWsC (c : Nat) : Bool :=
  c = 32 || c = 9 || c = 10 || c = 11 || c = 12 || c = 13 ||
  c = 160 || c = 0x2028 || c = 0x2029 || c = 0x3000 || c = 0xFEFF

/-- Code-point-wise model of NFKC width folding: the fullwidth ASCII block
U+FF01–U+FF5E maps onto U+0021–U+007E and the ideographic space U+3000 maps
to the plain space; every other code point this program touches is an NFKC
fixed point. -/
def nfkcChar (c : Nat) : Nat :=
  if c = 0x3000 then 32
  else if 0xFF01 ≤ c ∧ c ≤ 0xFF5E then c - 0xFEE0
  else c

/-- Model of `"…".normalize("NFKC")`. -/
def nfkc (s : Str) : Str := s.map nfkcChar

/-- Model of `toLowerCase` on the code points in play (ASCII lowering). -/
def lowerChar (c : Nat) : Nat := if 65 ≤ c ∧ c ≤ 90 then c + 32 else c

/-- Model of `"…".toLowerCase()`. -/
def lowerStr (s : Str) : Str := s.map lowerChar

/-- Model of `"…".trimStart()`-style left trimming. -/
def trimL (s : Str) : Str := s.dropWhile isWsC

/-- Right trimming. -/
def trimR (s : Str) : Str := (s.reverse.dropWhile isWsC).reverse

/-- Model of `"…".trim()`. -/
def trimS (s : Str) : Str := trimR (trimL s)

/-- The opening-bracket class `[\(\[【「『（]` of `diary.ts`. -/
def isOpenBr (c : Nat) : Bool :=
  c = 40 || c = 91 || c = 0x3010 || c = 0x300C || c = 0x300E || c = 0xFF08

/-- The closing-bracket / punctuation class `[\)\]\}】」』）、。．.,!?:;！？]`
of `diary.ts`. -/
def isCloseP (c : Nat) : Bool :=
  c = 41 || c = 93 || c = 125 || c = 0x3011 || c = 0x300D || c = 0x300F ||
  c = 0xFF09 || c = 0x3001 || c = 0x3002 || c = 0xFF0E || c = 46 || c = 44 ||
  c = 33 || c = 63 || c = 58 || c = 59 || c = 0xFF01 || c = 0xFF1F

/-- `tag.replace(/^[\(\[【「『（]+/g, "")`. -/
def stripLeadOpen (s : Str) : Str := s.dropWhile isOpenBr

/-- `tag.replace(/[\)\]\}】」』）、。．.,!?:;！？]+$/g, "")`. -/
def stripTrailClose (s : Str) : Str := (s.reverse.dropWhile isCloseP).reverse

/-- `if (q.startsWith("#")) q = q.slice(1)`. -/
def hashStrip (s : Str) : Str := if s.head? = some 35 then s.tail else s

/-- `normalizeAliasKey` from `lib/diary.ts`: NFKC, trim, strip one leading
`#`, strip leading open brackets and trailing closing punctuation, trim and
lowercase. -/
def normalizeAliasKey (raw : Str) : Str :=
  let q := trimS (nfkc raw)
  let q := hashStrip q
  let q := stripLeadOpen q
  let q := stripTrailClose q
  lowerStr (trimS q)

/-- `normalizeAliasValue` from `lib/diary.ts`: NFKC and trim only. -/
def normalizeAliasValue (raw : Str) : Str := trimS (nfkc raw)

/-- A `TagAliases` record (`Record<string, string>`): an association list with
pairwise-distinct keys, in object insertion order. -/
abbrev TagAliases := List (Str × Str)

/-- Object property lookup `aliases[k]`. -/
def aliasLookup (aliases : TagAliases) (k : Str) : Option Str :=
  (aliases.find? (fun p => p.1 = k)).map (·.2)

/-- `DEFAULT_TAG_ALIASES` from `lib/diary.ts`: けんこう/べんきょう/じむ and
health/study/work mapped to 健康/学習/事務/仕事. -/
def DEFAULT_TAG_ALIASES : TagAliases :=
  [ ([0x3051, 0x3093, 0x3053, 0x3046], [0x5065, 0x5EB7]),
    ([0x3079, 0x3093, 0x304D, 0x3087, 0x3046], [0x5B66, 0x7FD2]),
    ([0x3058, 0x3080], [0x4E8B, 0x52D9]),
    ([104, 101, 97, 108, 116, 104], [0x5065, 0x5EB7]),
    ([115, 116, 117, 100, 121], [0x5B66, 0x7FD2]),
    ([119, 111, 114, 107], [0x4ED5, 0x4E8B]) ]

/-- `canonicalizeTag` from `lib/diary.ts`: normalize the raw tag to an alias
key; on a dictionary hit return the normalized dictionary value (the JS
truthiness test makes an empty stored value fall back to the key), otherwise
the key itself. -/
def canonicalizeTag (raw : Str) (aliases : TagAliases) : Str :=
  let k := normalizeAliasKey raw
  if k = [] then []
  else
    match aliasLookup aliases k with
    | some aliased => if aliased = [] then k else normalizeAliasValue aliased
    | none => k

/-- One step of the `/#([^\s#]+)/g` scan in `extractTags`: `cur = some tok`
means the scanner is inside a candidate token begun by a `#`.  A token ends at
whitespace, at a further `#` (which begins the next candidate), or at the end
of the text; empty candidates (a `#` followed by nothing usable) are the
positions at which the regex does not match. -/
def scanHashAux : Str → Option Str → List Str
  | [], none => []
  | [], some tok => if tok = [] then [] else [tok]
  | c :: rest, none =>
      if c = 35 then scanHashAux rest (some [])
      else scanHashAux rest none
  | c :: rest, some tok =>
      if isWsC c then
        (if tok = [] then [] else [tok]) ++ scanHashAux rest none
      else if c = 35 then
        (if tok = [] then [] else [tok]) ++ scanHashAux rest (some [])
      else
        scanHashAux rest (some (tok ++ [c]))

/-- All matches of `/#([^\s#]+)/g` over the text, in order. -/
def scanHashTokens (s : Str) : List Str := scanHashAux s none

/-- `Set.add` on the accumulated canonical tags (JS sets keep first-insertion
order); empty canonical tags are skipped by the `if (!canon) continue`. -/
def addTag (acc : List Str) (canon : Str) : List Str :=
  if canon = [] then acc
  else if canon ∈ acc then acc
  else acc ++ [canon]

/-- `extractTags(text, aliases)` from `lib/diary.ts`: scan `#`-tokens, strip
surrounding brackets/punctuation, canonicalize through the alias dictionary,
and return the deduplicated canonical tags in first-occurrence order. -/
def extractTags (text : Str) (aliases : TagAliases) : List Str :=
  (scanHashTokens text).foldl
    (fun acc tok =>
      addTag acc (canonicalizeTag (stripTrailClose (stripLeadOpen tok)) aliases))
    []

/-- Model of `localeCompare` (code-point lexicographic comparison returning a
sign, which is what the sort comparators consume). -/
def lexCmp : Str → Str → Int
  | [], [] => 0
  | [], _ :: _ => -1
  | _ :: _, [] => 1
  | a :: as, b :: bs =>
      if a < b then -1 else if b < a then 1 else lexCmp as bs

/-- Strict code-point lexicographic order on strings, used to state the
ranking properties independently of the comparator implementation. -/
def lexLtB : Str → Str → Bool
  | [], [] => false
  | [], _ :: _ => true
  | _ :: _, [] => false
  | a :: as, b :: bs =>
      if a < b then true else if b < a then false else lexLtB as bs

/-- Object upsert `out[nk] = nv`: overwrite the value when the key is already
present (keeping its position), append otherwise. -/
def upsertAlias (acc : TagAliases) (k v : Str) : TagAliases :=
  if (acc.find? (fun p => p.1 = k)).isSome then
    acc.map (fun p => if p.1 = k then (p.1, v) else p)
  else acc ++ [(k, v)]

/-- The entry-normalization loop of `loadTagAliases`: normalize each key and
value, dropping entries whose key or value normalizes to empty. -/
def normalizeAliasEntries (entries : List (Str × Str)) : TagAliases :=
  entries.foldl
    (fun acc kv =>
      let nk := normalizeAliasKey kv.1
      let nv := normalizeAliasValue kv.2
      if nk = [] ∨ nv = [] then acc else upsertAlias acc nk nv)
    []

/-- The persisted state of the single alias-dictionary key
`achieve:tag-aliases:v1`: absent (or stored as the empty string), stored but
not parsable as a string-to-string object, or a parsed object (the
`JSON.stringify`/`JSON.parse` round trip on such objects is the identity). -/
inductive StoredAliases where
  | absent : StoredAliases
  | malformed : StoredAliases
  | record (entries : List (Str × Str)) : StoredAliases
deriving DecidableEq

/-- `loadTagAliases` from `lib/diary.ts`: fall back to the defaults when the
record is absent or malformed, normalize the entries otherwise, and fall back
to the defaults again when nothing survives normalization. -/
def loadTagAliases : StoredAliases → TagAliases
  | .absent => DEFAULT_TAG_ALIASES
  | .malformed => DEFAULT_TAG_ALIASES
  | .record entries =>
      let out := normalizeAliasEntries entries
      if out = [] then DEFAULT_TAG_ALIASES else out

/-- `saveTagAliases`: persist `JSON.stringify(aliases)` under the dictionary
key, i.e. replace the slot with the raw record, unchanged. -/
def saveTagAliases (aliases : TagAliases) : StoredAliases := .record aliases

/-- `resetTagAliases`: persist a copy of the defaults and return it. -/
def resetTagAliases : TagAliases × StoredAliases :=
  (DEFAULT_TAG_ALIASES, saveTagAliases DEFAULT_TAG_ALIASES)

/-- `AchieveItem` from `lib/storage.ts`. -/
structure AchieveItemM where
  id : Str
  text : Str
  done : Bool
  createdAt : Str
deriving DecidableEq

/-- `AchieveMood`, minus the `null` case (carried as `Option`). -/
inductive MoodM where
  | good : MoodM
  | neutral : MoodM
  | tough : MoodM
deriving DecidableEq

/-- `AchieveDay` from `lib/storage.ts`. -/
structure AchieveDayM where
  ymd : Str
  items : List AchieveItemM
  mood : Option MoodM
  memo : Str
  updatedAt : Str
deriving DecidableEq

/-- One `localStorage` value: either a plain string that does not parse to a
valid day record (this covers the freshness stamp as well as junk), or a JSON
string that parses to a value passing the `isDay` shape check, carried in
parsed form. -/
inductive CellM where
  | plain (s : Str) : CellM
  | dayJson (d : AchieveDayM) : CellM
deriving DecidableEq

/-- The `localStorage` contents: key/value cells in enumeration order
(`storage.key(i)`); real storage keys are pairwise distinct. -/
structure StorageM where
  cells : List (Str × CellM)
deriving DecidableEq

/-- `storage.getItem(k)`: the first cell with the given key. -/
def getItem (st : StorageM) (k : Str) : Option CellM :=
  (st.cells.find? (fun p => p.1 = k)).map (·.2)

/-- `DAY_KEY_PREFIX = "achieve:day:"`. -/
def dayKeyPfx : Str := [97, 99, 104, 105, 101, 118, 101, 58, 100, 97, 121, 58]

/-- `META_UPDATED_AT_KEY = "achieve:meta:lastUpdatedAt"`. -/
def metaUpdatedAtKey : Str :=
  [97, 99, 104, 105, 101, 118, 101, 58, 109, 101, 116, 97, 58,
   108, 97, 115, 116, 85, 112, 100, 97, 116, 101, 100, 65, 116]

/-- A decimal digit code point. -/
def isDigit (c : Nat) : Bool := 48 ≤ c && c ≤ 57

/-- `isYmdString`: `/^\d{4}-\d{2}-\d{2}$/`. -/
def isYmdString (s : Str) : Bool :=
  match s with
  | [y1, y2, y3, y4, h1, m1, m2, h2, d1, d2] =>
      isDigit y1 && isDigit y2 && isDigit y3 && isDigit y4 && h1 = 45 &&
      isDigit m1 && isDigit m2 && h2 = 45 && isDigit d1 && isDigit d2
  | _ => false

/-- `normalizeItem` from `lib/storage.ts`: trim `id`/`text` and drop the item
when either is empty; default an empty `createdAt` to the ambient clock
`tNow`. -/
def normalizeItemM (tNow : Str) (it : AchieveItemM) : Option AchieveItemM :=
  let id := trimS it.id
  let text := trimS it.text
  if id = [] ∨ text = [] then none
  else some ⟨id, text, it.done, if trimS it.createdAt = [] then tNow else trimS it.createdAt⟩

/-- `normalizeDay` from `lib/storage.ts`: the calendar day comes from the
storage key (`ymd`), not from the stored record; items are sanitized; a value
that fails to parse yields the empty-but-valid record. -/
def normalizeDayM (tNow : Str) (ymd : Str) : CellM → AchieveDayM
  | .plain _ => ⟨ymd, [], none, [], tNow⟩
  | .dayJson d => ⟨ymd, d.items.filterMap (normalizeItemM tNow), d.mood, d.memo, d.updatedAt⟩

/-- `DayEntry` as exported by `lib/storage.ts` (no `storageKey`). -/
structure DayEntrySt where
  ymd : Str
  day : AchieveDayM
deriving DecidableEq

/-- `DayEntry` as defined in `lib/diary.ts` (with `storageKey`). -/
structure DayEntryD where
  ymd : Str
  day : AchieveDayM
  storageKey : Str
deriving DecidableEq

/-- `scanDaysFromStorage` from `lib/storage.ts`: every cell whose key has the
day prefix and a well-formed date suffix (and a non-empty value) yields a
normalized entry keyed by the suffix; the result is sorted by date,
newest first, with `b.ymd.localeCompare(a.ymd)`. -/
def scanDaysFromStorageStore (tNow : Str) (st : StorageM) : List DayEntrySt :=
  let out := st.cells.filterMap (fun kc =>
    if dayKeyPfx.isPrefixOf kc.1 then
      let ymd := kc.1.drop dayKeyPfx.length
      if isYmdString ymd then
        match kc.2 with
        | .plain s => if s = [] then none else some ⟨ymd, normalizeDayM tNow ymd (.plain s)⟩
        | .dayJson d => some ⟨ymd, normalizeDayM tNow ymd (.dayJson d)⟩
      else none
    else none)
  List.insertionSort (fun a b => lexCmp b.ymd a.ymd ≤ 0) out

/-- The pre-deduplication enumeration pass of the `lib/diary.ts`
`scanDaysFromStorage`: every cell (any key) whose value parses to a valid day
record yields an entry keyed by the record's own `ymd` field. -/
def rawDayEntries (st : StorageM) : List DayEntryD :=
  st.cells.filterMap (fun kc =>
    match kc.2 with
    | .dayJson d => some ⟨d.ymd, d, kc.1⟩
    | .plain _ => none)

/-- The first-wins `Map` deduplication of the `lib/diary.ts` scan:
`if (!map.has(e.ymd)) map.set(e.ymd, e)`, values in insertion order. -/
def dedupFirstYmd (seen : List Str) : List DayEntryD → List DayEntryD
  | [] => []
  | e :: rest =>
      if e.ymd ∈ seen then dedupFirstYmd seen rest
      else e :: dedupFirstYmd (e.ymd :: seen) rest

/-- `scanDaysFromStorage` from `lib/diary.ts`: parse every cell, keep the
first record per `ymd` in enumeration order, sort by date newest first. -/
def scanDaysFromStorageDiary (st : StorageM) : List DayEntryD :=
  List.insertionSort (fun a b => lexCmp b.ymd a.ymd ≤ 0)
    (dedupFirstYmd [] (rawDayEntries st))

/-- `lastIndexOf("#")` over a code-point list. -/
def lastIdxHash : Str → Option Nat
  | [] => none
  | c :: rest =>
      match lastIdxHash rest with
      | some i => some (i + 1)
      | none => if c = 35 then some 0 else none

/-- `getActiveTagToken` from `lib/tags/active-token.ts`: find the last `#`
before the cursor, reject it when the preceding character exists and is not
whitespace or when whitespace occurs after it, otherwise return its index and
the raw text between it and the cursor. -/
def getActiveTagToken (text : Str) (cursor : Nat) : Option (Nat × Str) :=
  let before := text.take cursor
  match lastIdxHash before with
  | none => none
  | some h =>
      if 0 < h ∧ isWsC (before.getD (h - 1) 0) = false then none
      else
        let afterHash := before.drop (h + 1)
        if afterHash.any isWsC then none
        else some (h, afterHash)

/-- `TagSuggestion` from `lib/tags/suggest.ts`. -/
structure TagSuggestion where
  tag : Str
  totalCount : Nat
  recent7Count : Nat
  lastSeenYmd : Str
  matchKeys : List Str
deriving DecidableEq

/-- `Map` push used by `invertAliases`: append to the key's list, keeping the
key's insertion position, or create a one-element list. -/
def mapPush (m : List (Str × List Str)) (k v : Str) : List (Str × List Str) :=
  if (m.find? (fun p => p.1 = k)).isSome then
    m.map (fun p => if p.1 = k then (p.1, p.2 ++ [v]) else p)
  else m ++ [(k, [v])]

/-- `invertAliases` from `lib/tags/suggest.ts`: canonical tag to the list of
normalized alias keys folding to it. -/
def invertAliases (aliases : TagAliases) : List (Str × List Str) :=
  aliases.foldl
    (fun inv kv =>
      let canon := trimS (nfkc kv.2)
      if canon = [] then inv
      else mapPush inv canon (lowerStr (trimS (nfkc kv.1))))
    []

/-- `inv.get(tag) ?? []`. -/
def invGet (inv : List (Str × List Str)) (k : Str) : List Str :=
  ((inv.find? (fun p => p.1 = k)).map (·.2)).getD []

/-- The per-tag aggregation record of `buildTagSuggestions`. -/
structure StatM where
  total : Nat
  recent7 : Nat
  lastSeen : Str
deriving DecidableEq

/-- `stat.get(t) ?? { total: 0, recent7: 0, lastSeen: "" }`. -/
def statGet (m : List (Str × StatM)) (t : Str) : StatM :=
  ((m.find? (fun p => p.1 = t)).map (·.2)).getD ⟨0, 0, []⟩

/-- `stat.set(t, cur)`: replace in place or append. -/
def statSet (m : List (Str × StatM)) (t : Str) (v : StatM) : List (Str × StatM) :=
  if (m.find? (fun p => p.1 = t)).isSome then
    m.map (fun p => if p.1 = t then (p.1, v) else p)
  else m ++ [(t, v)]

/-- The inner counting step of `buildTagSuggestions`: bump the totals, bump
the 7-day count when the day is in the window, and advance `lastSeen` using
the JS string comparison `e.ymd > cur.lastSeen`. -/
def bumpStat (isRecent7 : Bool) (ymd : Str) (m : List (Str × StatM)) (t : Str) :
    List (Str × StatM) :=
  let cur := statGet m t
  statSet m t
    ⟨cur.total + 1,
     cur.recent7 + (if isRecent7 then 1 else 0),
     if cur.lastSeen = [] ∨ lexLtB cur.lastSeen ymd then ymd else cur.lastSeen⟩

/-- The aggregation loop of `buildTagSuggestions` over all entries and items. -/
def buildStats (recentYmds : List Str) (entries : List DayEntrySt)
    (aliases : TagAliases) : List (Str × StatM) :=
  entries.foldl
    (fun m e =>
      let isRecent7 := decide (e.ymd ∈ recentYmds)
      e.day.items.foldl
        (fun m it => (extractTags it.text aliases).foldl (bumpStat isRecent7 e.ymd) m)
        m)
    []

/-- The five-key sort comparator of `buildTagSuggestions`, literally as in the
source (`br - ar`, then descending recent-7 count, descending last-seen date,
descending total, ascending tag). -/
def cmpSug (a b : TagSuggestion) : Int :=
  let ar : Int := if 0 < a.recent7Count then 1 else 0
  let br : Int := if 0 < b.recent7Count then 1 else 0
  if br ≠ ar then br - ar
  else if b.recent7Count ≠ a.recent7Count then
    (b.recent7Count : Int) - (a.recent7Count : Int)
  else if b.lastSeenYmd ≠ a.lastSeenYmd then lexCmp b.lastSeenYmd a.lastSeenYmd
  else if b.totalCount ≠ a.totalCount then (b.totalCount : Int) - (a.totalCount : Int)
  else lexCmp a.tag b.tag

/-- `buildTagSuggestions(entries, aliases)` from `lib/tags/suggest.ts`.  The
trailing-7-day window `lastNYmds(7)` is computed there from the ambient
clock; it enters here as the parameter `recentYmds`. -/
def buildTagSuggestions (recentYmds : List Str) (entries : List DayEntrySt)
    (aliases : TagAliases) : List TagSuggestion :=
  let inv := invertAliases aliases
  let stat := buildStats recentYmds entries aliases
  let arr := stat.map (fun ts =>
    { tag := ts.1, totalCount := ts.2.total, recent7Count := ts.2.recent7,
      lastSeenYmd := ts.2.lastSeen,
      matchKeys := lowerStr (trimS (nfkc ts.1)) :: invGet inv ts.1 })
  List.insertionSort (fun a b => cmpSug a b ≤ 0) arr

/-! ### The Day-Entries Cache (`lib/days-store.ts`)

Module-level mutable state becomes an explicit record.  Array reference
identity is modelled by a numeric id: the module constant `EMPTY_ENTRIES` is
the reference `0`, and every non-empty scan result is a freshly allocated
array, given a fresh id from the `nextId` counter. -/

/-- The mutable module state of `lib/days-store.ts`. -/
structure DaysStoreSt where
  loaded : Bool
  cacheId : Nat
  cacheVal : List DayEntrySt
  stamp : Str
  keyCount : Nat
  maxYmd : Str
  dirty : Bool
  nextId : Nat
deriving DecidableEq

/-- The state at module load: not loaded, cache is the `EMPTY_ENTRIES`
reference (id 0), dirty. -/
def initDaysStore : DaysStoreSt :=
  ⟨false, 0, [], [], 0, [], true, 1⟩

/-- `readStamp`: the raw string under the meta key, `""` when absent (the
meta key is only ever written as a plain timestamp string). -/
def readStamp (st : StorageM) : Str :=
  match getItem st metaUpdatedAtKey with
  | some (.plain s) => s
  | some (.dayJson _) => []
  | none => []

/-- `computeKeyStats`: count of day-keys and maximum date key. -/
def computeKeyStats (st : StorageM) : Nat × Str :=
  st.cells.foldl
    (fun acc kc =>
      if dayKeyPfx.isPrefixOf kc.1 then
        let ymd := kc.1.drop dayKeyPfx.length
        if isYmdString ymd then
          (acc.1 + 1, if lexCmp ymd acc.2 > 0 then ymd else acc.2)
        else acc
      else acc)
    (0, [])

/-- `shouldRescan`: never loaded, dirty, stamp changed, or key statistics
diverged. -/
def shouldRescan (st : StorageM) (s : DaysStoreSt) : Bool :=
  if !s.loaded then true
  else if s.dirty then true
  else if readStamp st ≠ s.stamp then true
  else
    let stats := computeKeyStats st
    if stats.1 ≠ s.keyCount then true
    else if stats.2 ≠ s.maxYmd then true
    else false

/-- `rescan`: scan the storage and replace the cache — with the freshly
allocated scan array when non-empty, with the shared `EMPTY_ENTRIES`
reference when empty; refresh the fingerprint and clear `dirty`.  There is no
content comparison with the previous cache. -/
def rescan (tNow : Str) (st : StorageM) (s : DaysStoreSt) : DaysStoreSt :=
  let next := scanDaysFromStorageStore tNow st
  let stats := computeKeyStats st
  if next = [] then
    ⟨true, 0, [], readStamp st, stats.1, stats.2, false, s.nextId⟩
  else
    ⟨true, s.nextId, next, readStamp st, stats.1, stats.2, false, s.nextId + 1⟩

/-- `getDaysSnapshot`: `null` before the first scan, the cached array
(reference and content) afterwards. -/
def getDaysSnapshot (s : DaysStoreSt) : Option (Nat × List DayEntrySt) :=
  if s.loaded then some (s.cacheId, s.cacheVal) else none

/-- The value of one `loadDaysIfNeeded` call: the post state, the returned
array (reference id and content) and whether subscribers were notified. -/
structure LoadResult where
  st : DaysStoreSt
  refId : Nat
  refVal : List DayEntrySt
  emitted : Bool
deriving DecidableEq

/-- `loadDaysIfNeeded` from `lib/days-store.ts`: rescan when forced or stale;
notify exactly when the loaded flag flips or the cache reference changed
(`prev !== cache`). -/
def loadDaysIfNeeded (tNow : Str) (st : StorageM) (force : Bool) (s : DaysStoreSt) :
    LoadResult :=
  let need := if force then true else shouldRescan st s
  if !need then ⟨s, s.cacheId, s.cacheVal, false⟩
  else
    let prevId := s.cacheId
    let prevLoaded := s.loaded
    let s2 := rescan tNow st s
    ⟨s2, s2.cacheId, s2.cacheVal, !prevLoaded || prevId != s2.cacheId⟩

/-! ### The Refresh Coordinators
(`lib/days-refresh.ts` and the coordinator half of `lib/aliases-store.ts`) -/

/-- The optional fields of a refresh request (`DaysRefreshRequest` /
`TagAliasesRefreshRequest`). -/
structure RefreshReq where
  force : Option Bool
  immediate : Option Bool
  throttleMs : Option Int
deriving DecidableEq

/-- How a deferred job was scheduled: through `runIdle` (tracked by the
single cancel slot) or through `window.setTimeout(…, 0)` (untracked). -/
inductive JobKind where
  | idle : JobKind
  | timeout : JobKind
deriving DecidableEq

/-- An outstanding scheduled callback with its captured `force` flag. -/
structure JobM where
  id : Nat
  force : Bool
  kind : JobKind
deriving DecidableEq

/-- The whole days-side client state: the coordinator module state of
`lib/days-refresh.ts` (`lastRequestedAt`, `jobCancel`), the pool of pending
scheduled callbacks, the day-entries cache and the storage. -/
structure DaysSys where
  lastRequestedAt : Int
  jobCancel : Option Nat
  pending : List JobM
  nextJob : Nat
  store : DaysStoreSt
  storage : StorageM
deriving DecidableEq

/-- Module-load state of the days side over a given storage. -/
def initDaysSys (st : StorageM) : DaysSys :=
  ⟨0, none, [], 1, initDaysStore, st⟩

/-- `requestDaysRefresh` from `lib/days-refresh.ts`: drop non-forced requests
inside the throttle window; no-op while the idle job is pending; run
`loadDaysIfNeeded` synchronously when `immediate`; otherwise schedule one
idle job and remember its cancel handle. -/
def requestDaysRefresh (now : Int) (tIso : Str) (req : RefreshReq) (s : DaysSys) :
    DaysSys :=
  let throttleMs := req.throttleMs.getD 500
  let force := req.force.getD false
  let immediate := req.immediate.getD false
  if force = false ∧ now - s.lastRequestedAt < throttleMs then s
  else
    let s1 := { s with lastRequestedAt := now }
    if s1.jobCancel.isSome then s1
    else if immediate then
      { s1 with store := (loadDaysIfNeeded tIso s1.storage force s1.store).st }
    else
      { s1 with jobCancel := some s1.nextJob,
                pending := s1.pending ++ [⟨s1.nextJob, force, .idle⟩],
                nextJob := s1.nextJob + 1 }

/-- `cancelDaysRefresh`: cancel the pending idle callback, if any. -/
def cancelDaysRefresh (s : DaysSys) : DaysSys :=
  match s.jobCancel with
  | some id =>
      { s with jobCancel := none, pending := s.pending.filter (fun j => j.id ≠ id) }
  | none => { s with jobCancel := none }

/-- A pending idle callback fires: it leaves the pool, clears `jobCancel` and
runs `loadDaysIfNeeded` with its captured `force` flag. -/
def runDaysIdleJob (tIso : Str) (j : JobM) (s : DaysSys) : DaysSys :=
  { s with pending := s.pending.filter (fun x => x.id ≠ j.id),
           jobCancel := none,
           store := (loadDaysIfNeeded tIso s.storage j.force s.store).st }

/-- The event-loop steps the days side can take. -/
inductive DaysStep : DaysSys → DaysSys → Prop where
  | request {s} (now : Int) (tIso : Str) (req : RefreshReq) :
      DaysStep s (requestDaysRefresh now tIso req s)
  | cancel {s} : DaysStep s (cancelDaysRefresh s)
  | run {s} (tIso : Str) (j : JobM) (hj : j ∈ s.pending) :
      DaysStep s (runDaysIdleJob tIso j s)
  | load {s} (tIso : Str) (force : Bool) :
      DaysStep s { s with store := (loadDaysIfNeeded tIso s.storage force s.store).st }
  | markDirty {s} : DaysStep s { s with store := { s.store with dirty := true } }
  | mutate {s} (st : StorageM) : DaysStep s { s with storage := st }

/-- States reachable from module load. -/
inductive ReachDays : DaysSys → Prop where
  | init (st : StorageM) : ReachDays (initDaysSys st)
  | step {s s'} : ReachDays s → DaysStep s s' → ReachDays s'

/-- The mutable cache half of `lib/aliases-store.ts`. -/
structure AliasStoreSt where
  loaded : Bool
  cache : TagAliases
  dirty : Bool
deriving DecidableEq

/-- Module-load state of the alias cache. -/
def initAliasStore : AliasStoreSt := ⟨false, [], true⟩

/-- `shallowEqual` from `lib/aliases-store.ts`. -/
def shallowEqualAl (a b : TagAliases) : Bool :=
  a.length = b.length && a.all (fun kv => aliasLookup b kv.1 = some kv.2)

/-- `shouldReload`. -/
def shouldReloadAl (force : Bool) (s : AliasStoreSt) : Bool :=
  if force then true
  else if !s.loaded then true
  else if s.dirty then true
  else false

/-- `reloadNow`: reload from storage when needed; replace the cache and
notify only when the shallow comparison says the content changed. -/
def reloadNow (slot : StoredAliases) (force : Bool) (s : AliasStoreSt) :
    AliasStoreSt × Bool :=
  if !(shouldReloadAl force s) then (s, false)
  else
    let next := loadTagAliases slot
    let changed := !s.loaded || !(shallowEqualAl s.cache next)
    (⟨true, if changed then next else s.cache, false⟩, changed)

/-- The whole alias-side client state: the coordinator state
(`refreshGateMs`, `scheduledCancel`), the pool of pending callbacks (idle and
timeout), the alias cache and the persisted dictionary slot. -/
structure AliasSys where
  refreshGateMs : Int
  scheduledCancel : Option Nat
  pending : List JobM
  nextJob : Nat
  store : AliasStoreSt
  slot : StoredAliases
deriving DecidableEq

/-- Module-load state of the alias side over a given persisted slot. -/
def initAliasSys (sl : StoredAliases) : AliasSys :=
  ⟨0, none, [], 1, initAliasStore, sl⟩

/-- `requestTagAliasesRefresh` from `lib/aliases-store.ts`: drop non-forced
requests inside the throttle window; no-op while the tracked idle job is
pending; schedule an untracked `setTimeout` job when `immediate`; otherwise
schedule one idle job and remember its cancel handle.  It never calls
`reloadNow` itself. -/
def requestTagAliasesRefresh (now : Int) (req : RefreshReq) (s : AliasSys) : AliasSys :=
  let throttleMs := req.throttleMs.getD 500
  let force := req.force.getD false
  let immediate := req.immediate.getD false
  if force = false ∧ now - s.refreshGateMs < throttleMs then s
  else
    let s1 := { s with refreshGateMs := now }
    if s1.scheduledCancel.isSome then s1
    else if immediate then
      { s1 with pending := s1.pending ++ [⟨s1.nextJob, force, .timeout⟩],
                nextJob := s1.nextJob + 1 }
    else
      { s1 with scheduledCancel := some s1.nextJob,
                pending := s1.pending ++ [⟨s1.nextJob, force, .idle⟩],
                nextJob := s1.nextJob + 1 }

/-- A pending alias-side callback fires; the idle one clears the cancel slot,
the timeout one does not touch it. -/
def runAliasJob (j : JobM) (s : AliasSys) : AliasSys :=
  match j.kind with
  | .timeout =>
      { s with pending := s.pending.filter (fun x => x.id ≠ j.id),
               store := (reloadNow s.slot j.force s.store).1 }
  | .idle =>
      { s with pending := s.pending.filter (fun x => x.id ≠ j.id),
               scheduledCancel := none,
               store := (reloadNow s.slot j.force s.store).1 }

/-- `notifyTagAliasesMutated`: mark dirty, then request a forced immediate
refresh. -/
def notifyTagAliasesMutated (now : Int) (s : AliasSys) : AliasSys :=
  requestTagAliasesRefresh now ⟨some true, some true, none⟩
    { s with store := { s.store with dirty := true } }

/-- `saveTagAliasesAndNotify`: persist, then notify. -/
def saveTagAliasesAndNotify (now : Int) (aliases : TagAliases) (s : AliasSys) : AliasSys :=
  notifyTagAliasesMutated now { s with slot := saveTagAliases aliases }

/-- `resetTagAliasesAndNotify`: persist the defaults, then notify. -/
def resetTagAliasesAndNotify (now : Int) (s : AliasSys) : AliasSys :=
  notifyTagAliasesMutated now { s with slot := (resetTagAliases).2 }

/-- The event-loop steps the alias side can take. -/
inductive AliasStep : AliasSys → AliasSys → Prop where
  | request {s} (now : Int) (req : RefreshReq) :
      AliasStep s (requestTagAliasesRefresh now req s)
  | run {s} (j : JobM) (hj : j ∈ s.pending) : AliasStep s (runAliasJob j s)
  | reload {s} (force : Bool) :
      AliasStep s { s with store := (reloadNow s.slot force s.store).1 }
  | markDirty {s} : AliasStep s { s with store := { s.store with dirty := true } }
  | setSlot {s} (sl : StoredAliases) : AliasStep s { s with slot := sl }
  | saveNotify {s} (now : Int) (aliases : TagAliases) :
      AliasStep s (saveTagAliasesAndNotify now aliases s)
  | resetNotify {s} (now : Int) : AliasStep s (resetTagAliasesAndNotify now s)

/-- States reachable from module load. -/
inductive ReachAlias : AliasSys → Prop where
  | init (sl : StoredAliases) : ReachAlias (initAliasSys sl)
  | step {s s'} : ReachAlias s → AliasStep s s' → ReachAlias s'

/-! ### Concrete data used by counterexamples and witnesses -/

/-- The date string `"2025-01-10"`. -/
def ymdA : Str := [50, 48, 50, 53, 45, 48, 49, 45, 49, 48]

/-- A well-formed stored day record for `ymdA` with one item. -/
def dayA : AchieveDayM :=
  ⟨ymdA, [⟨[97], [104, 105], true, [116]⟩], none, [], []⟩

/-- A storage holding exactly the one day record `dayA` under its day key. -/
def stgA : StorageM := ⟨[(dayKeyPfx ++ ymdA, .dayJson dayA)]⟩

/-- The empty storage. -/
def stgEmpty : StorageM := ⟨[]⟩

/-- A forced immediate refresh request. -/
def reqFI : RefreshReq := ⟨some true, some true, none⟩

/-- The alias state after two back-to-back forced immediate refresh
requests. -/
def aliasSysTwoImm : AliasSys :=
  requestTagAliasesRefresh 1001 reqFI
    (requestTagAliasesRefresh 1000 reqFI (initAliasSys .absent))

/-! ### Comparator infrastructure used to reason about the two sorts -/

/-- A sign-valued comparator that induces a total preorder: antisymmetric
under argument swap and transitive on its non-positive cone. -/
structure IsLinCmp {α : Type} (c : α → α → Int) : Prop where
  swap : ∀ x y, c y x = -(c x y)
  trans_le : ∀ x y z, c x y ≤ 0 → c y z ≤ 0 → c x z ≤ 0

/-- Tie-breaking composition of comparators: fall through to `d` when `c`
reports a tie. -/
def chainCmp {α : Type} (c d : α → α → Int) (x y : α) : Int :=
  if c x y = 0 then d x y else c x y

/-- The five-key strict ranking of the specification: any recent-7-day
occurrence first, then recent-7-day count descending, last-seen date
descending, total count descending, tag ascending. -/
def rankLT (a b : TagSuggestion) : Prop :=
  (0 < a.recent7Count ∧ b.recent7Count = 0) ∨
  ((0 < a.recent7Count ↔ 0 < b.recent7Count) ∧
    (b.recent7Count < a.recent7Count ∨
      (a.recent7Count = b.recent7Count ∧
        (lexLtB b.lastSeenYmd a.lastSeenYmd = true ∨
          (a.lastSeenYmd = b.lastSeenYmd ∧
            (b.totalCount < a.totalCount ∨
              (a.totalCount = b.totalCount ∧ lexLtB a.tag b.tag = true)))))))

/-! ### Concrete data for the suggestion-ranking example -/

/-- A date string `"2025-01-dd"`. -/
def jan25 (d1 d2 : Nat) : Str := [50, 48, 50, 53, 45, 48, 49, 45, d1, d2]

/-- The date string `"2024-12-31"`. -/
def dec31 : Str := [50, 48, 50, 52, 45, 49, 50, 45, 51, 49]

/-- The 7-day window `2025-01-04 … 2025-01-10`. -/
def sugWindow : List Str :=
  [jan25 48 52, jan25 48 53, jan25 48 54, jan25 48 55,
   jan25 48 56, jan25 48 57, jan25 49 48]

/-- An item whose text is `"#健康"`. -/
def itemKenko : AchieveItemM := ⟨[97], [35, 0x5065, 0x5EB7], true, [116]⟩

/-- An item whose text is `"#仕事"`. -/
def itemShigoto : AchieveItemM := ⟨[97], [35, 0x4ED5, 0x4E8B], true, [116]⟩

/-- A one-item day record. -/
def dayOf (y : Str) (it : AchieveItemM) : AchieveDayM := ⟨y, [it], none, [], []⟩

/-- The spec's ranking example: `健康` on the window days `01-10`, `01-09`,
`01-04`, and `仕事` on `2024-12-31` only (outside the window). -/
def sugEntries : List DayEntrySt :=
  [⟨jan25 49 48, dayOf (jan25 49 48) itemKenko⟩,
   ⟨jan25 48 57, dayOf (jan25 48 57) itemKenko⟩,
   ⟨jan25 48 52, dayOf (jan25 48 52) itemKenko⟩,
   ⟨dec31, dayOf dec31 itemShigoto⟩]

/-- A storage with two records (under keys `"k1"`, `"k2"`) carrying the same
`ymd`, to exercise first-wins deduplication of the diary-side scan. -/
def stgDup : StorageM :=
  ⟨[([107, 49], .dayJson ⟨ymdA, [], none, [], []⟩),
    ([107, 50], .dayJson ⟨ymdA, [⟨[97], [98], true, [99]⟩], none, [], []⟩)]⟩

/-- The days-coordinator pool invariant: the cancel slot mirrors the pool —
no slot, no pending callback; a slot, exactly that one idle callback. -/
def daysCoordInv (s : DaysSys) : Prop :=
  (s.jobCancel = none → s.pending = []) ∧
  (∀ id, s.jobCancel = some id → ∃ f, s.pending = [⟨id, f, JobKind.idle⟩])

/-- The alias-coordinator pool invariant: pending ids are fresh and distinct,
and the cancel slot mirrors exactly the idle-scheduled part of the pool
(timeout jobs are untracked). -/
def aliasCoordInv (s : AliasSys) : Prop :=
  (s.pending.map (fun j => j.id)).Nodup ∧
  (∀ j ∈ s.pending, j.id < s.nextJob) ∧
  (s.scheduledCancel = none →
    s.pending.filter (fun j => j.kind = JobKind.idle) = []) ∧
  (∀ id, s.scheduledCancel = some id →
    ∃ f, s.pending.filter (fun j => j.kind = JobKind.idle) = [⟨id, f, JobKind.idle⟩])

/-! ### C1, counterexample -/

/-- C1 (counterexample): with one day record in storage, two forced
`loadDaysIfNeeded` calls with no intervening mutation return two different
array references, and the second one notifies subscribers — `rescan`
replaces the cache unconditionally, with no structural-equality check. -/
theorem loadDays_forced_twice_fresh_reference :
    (loadDaysIfNeeded [] stgA true initDaysStore).refId ≠
      (loadDaysIfNeeded [] stgA true
        (loadDaysIfNeeded [] stgA true initDaysStore).st).refId ∧
    (loadDaysIfNeeded [] stgA true
      (loadDaysIfNeeded [] stgA true initDaysStore).st).emitted = true := by
  decide

/-! ### C2, counterexample -/

/-- C2 (counterexample): `normalizeAliasKey` is not idempotent: on `"##x"`
the first pass strips only one leading `#` and yields `"#x"`, which a second
pass shortens to `"x"`. -/
theorem normalizeAliasKey_not_idempotent :
    normalizeAliasKey (normalizeAliasKey [35, 35, 120]) ≠
      normalizeAliasKey [35, 35, 120] := by
  decide

/-! ### C3, counterexample -/

/-- C3 (counterexample): an immediate days-refresh request runs the scan
synchronously inside the requesting call: on return the cache state has
already changed (the loaded flag has flipped). -/
theorem requestDaysRefresh_immediate_is_synchronous :
    (requestDaysRefresh 1000 [] ⟨none, some true, none⟩ (initDaysSys stgEmpty)).store ≠
      (initDaysSys stgEmpty).store ∧
    (requestDaysRefresh 1000 [] ⟨none, some true, none⟩
        (initDaysSys stgEmpty)).store.loaded = true := by
  decide

/-! ### C4, counterexample -/

/-- C4 (counterexample): a reachable alias-coordinator state holds two
scheduled jobs at once — two forced immediate requests each schedule an
untracked `setTimeout` job, which the single cancel slot does not guard. -/
theorem aliasCoordinator_two_scheduled_jobs :
    ReachAlias aliasSysTwoImm ∧ aliasSysTwoImm.pending.length = 2 := by
  refine ⟨?_, by decide⟩
  exact ReachAlias.step
    (ReachAlias.step (ReachAlias.init StoredAliases.absent)
      (AliasStep.request 1000 reqFI))
    (AliasStep.request 1001 reqFI)

/-! ### C8, counterexample -/

/-- C8 (counterexample): saving a dictionary that normalizes to zero entries
does not persist the built-in defaults: the slot keeps the raw empty record,
unlike the slot a reset persists; only the value read back equals the
defaults. -/
theorem saveEmptyAliases_persists_raw_record :
    saveTagAliases [] ≠ (resetTagAliases).2 ∧
    saveTagAliases [] = StoredAliases.record [] ∧
    loadTagAliases (saveTagAliases []) = DEFAULT_TAG_ALIASES := by
  decide

/-! ### C5 -/

/-- C5: the Day-Entries Cache distinguishes never-loaded from empty: the
fresh store's snapshot is the `null` sentinel, not an array; after scanning a
storage with no day records the snapshot is the loaded empty array, and that
empty array is the one shared `EMPTY_ENTRIES` reference (id 0) whatever state
the cache was in before. -/
theorem daysCache_neverLoaded_vs_empty :
    getDaysSnapshot initDaysStore = none ∧
    ∀ (tNow : Str) (st : StorageM) (s : DaysStoreSt),
      scanDaysFromStorageStore tNow st = [] →
      getDaysSnapshot (loadDaysIfNeeded tNow st true s).st = some (0, []) := by
  constructor
  · rfl
  · intro tNow st s h
    simp [loadDaysIfNeeded, rescan, h, getDaysSnapshot]

/-- C5 (witness): the characterization evaluated on the empty storage. -/
theorem daysCache_neverLoaded_vs_empty_witness :
    getDaysSnapshot (loadDaysIfNeeded [] stgEmpty true initDaysStore).st =
      some (0, []) :=
  daysCache_neverLoaded_vs_empty.2 [] stgEmpty initDaysStore (by decide)

/-! ### C1, amended -/

/-- C1 (amended): a forced refresh against unchanged storage is referentially
stable only when the scan result is empty — both calls then return the shared
`EMPTY_ENTRIES` reference and the second emits no notification; when the scan
finds any day record, `rescan` installs the freshly allocated scan array
without any structural-equality comparison, so the two calls return different
references and the second call notifies subscribers. -/
theorem loadDays_forced_refresh_reference_behavior :
    ∀ (tNow : Str) (st : StorageM) (s : DaysStoreSt),
      (scanDaysFromStorageStore tNow st = [] →
        (loadDaysIfNeeded tNow st true s).refId = 0 ∧
        (loadDaysIfNeeded tNow st true (loadDaysIfNeeded tNow st true s).st).refId = 0 ∧
        (loadDaysIfNeeded tNow st true
          (loadDaysIfNeeded tNow st true s).st).emitted = false) ∧
      (scanDaysFromStorageStore tNow st ≠ [] →
        (loadDaysIfNeeded tNow st true s).refId ≠
          (loadDaysIfNeeded tNow st true (loadDaysIfNeeded tNow st true s).st).refId ∧
        (loadDaysIfNeeded tNow st true
          (loadDaysIfNeeded tNow st true s).st).emitted = true) := by
  intro tNow st s
  constructor
  · intro h
    simp [loadDaysIfNeeded, rescan, h]
  · intro h
    simp [loadDaysIfNeeded, rescan, h]

/-- C1 (amended, witness): evaluated on the empty storage (stable `EMPTY`
reference) and on a one-record storage (fresh reference plus notification). -/
theorem loadDays_forced_refresh_reference_behavior_witness :
    ((loadDaysIfNeeded [] stgEmpty true initDaysStore).refId = 0 ∧
     (loadDaysIfNeeded [] stgEmpty true
       (loadDaysIfNeeded [] stgEmpty true initDaysStore).st).refId = 0 ∧
     (loadDaysIfNeeded [] stgEmpty true
       (loadDaysIfNeeded [] stgEmpty true initDaysStore).st).emitted = false) ∧
    ((loadDaysIfNeeded [] stgA true initDaysStore).refId ≠
       (loadDaysIfNeeded [] stgA true (loadDaysIfNeeded [] stgA true initDaysStore).st).refId ∧
     (loadDaysIfNeeded [] stgA true
       (loadDaysIfNeeded [] stgA true initDaysStore).st).emitted = true) :=
  ⟨(loadDays_forced_refresh_reference_behavior [] stgEmpty initDaysStore).1 (by decide),
   (loadDays_forced_refresh_reference_behavior [] stgA initDaysStore).2 (by decide)⟩

/-! ### C3, amended -/

/-- C3 (amended): the alias coordinator never runs the rescan synchronously —
any request (immediate included, which only schedules a next-tick timeout
job) leaves the alias cache state and the persisted slot unchanged when the
call returns; the days coordinator, by contrast, runs `loadDaysIfNeeded`
synchronously inside the requesting call when the immediate flag is set. -/
theorem aliasRequest_asynchronous_daysRequest_synchronous :
    (∀ (now : Int) (req : RefreshReq) (s : AliasSys),
      (requestTagAliasesRefresh now req s).store = s.store ∧
      (requestTagAliasesRefresh now req s).slot = s.slot) ∧
    (requestDaysRefresh 1000 [] ⟨none, some true, none⟩
        (initDaysSys stgEmpty)).store.loaded = true := by
  constructor
  · intro now req s
    simp only [requestTagAliasesRefresh]
    split_ifs <;> simp
  · decide

/-! ### C2: lemmas about the normalization pipeline -/

theorem lowerChar_idem (c : Nat) : lowerChar (lowerChar c) = lowerChar c := by
  unfold lowerChar
  split_ifs <;> omega

theorem nfkcChar_lowerChar_nfkcChar (c : Nat) :
    nfkcChar (lowerChar (nfkcChar c)) = lowerChar (nfkcChar c) := by
  unfold nfkcChar lowerChar
  split_ifs <;> omega

theorem isWsC_lowerChar (c : Nat) : isWsC (lowerChar c) = isWsC c := by
  by_cases h : 65 ≤ c ∧ c ≤ 90
  · have h1 : isWsC (c + 32) = false := by simp [isWsC]; omega
    have h2 : isWsC c = false := by simp [isWsC]; omega
    simp [lowerChar, h, h1, h2]
  · simp [lowerChar, h]

theorem head?_dropWhile_false (p : Nat → Bool) (l : List Nat) {c : Nat}
    (h : (l.dropWhile p).head? = some c) : p c = false := by
  induction l with
  | nil => simp at h
  | cons a l ih =>
    rw [List.dropWhile_cons] at h
    split_ifs at h with ha
    · exact ih h
    · simp at h
      subst h
      simpa using ha

theorem dropWhile_eq_self_of_head (p : Nat → Bool) (l : List Nat)
    (h : ∀ c, l.head? = some c → p c = false) : l.dropWhile p = l := by
  cases l with
  | nil => rfl
  | cons a t => rw [List.dropWhile_cons, if_neg (by simp [h a rfl])]

theorem mem_of_mem_dropWhile {p : Nat → Bool} {l : List Nat} {x : Nat}
    (h : x ∈ l.dropWhile p) : x ∈ l :=
  (List.dropWhile_sublist p).subset h

theorem mem_of_mem_trimS {l : List Nat} {x : Nat} (h : x ∈ trimS l) : x ∈ l := by
  unfold trimS trimR trimL at h
  exact mem_of_mem_dropWhile
    (List.mem_reverse.mp (mem_of_mem_dropWhile (List.mem_reverse.mp h)))

theorem mem_of_mem_stripLeadOpen {l : List Nat} {x : Nat}
    (h : x ∈ stripLeadOpen l) : x ∈ l := by
  unfold stripLeadOpen at h
  exact mem_of_mem_dropWhile h

theorem mem_of_mem_stripTrailClose {l : List Nat} {x : Nat}
    (h : x ∈ stripTrailClose l) : x ∈ l := by
  unfold stripTrailClose at h
  exact List.mem_reverse.mp (mem_of_mem_dropWhile (List.mem_reverse.mp h))

theorem mem_of_mem_hashStrip {l : Str} {x : Nat} (h : x ∈ hashStrip l) : x ∈ l := by
  unfold hashStrip at h
  split_ifs at h
  · exact List.tail_subset _ h
  · exact h

theorem normalizeAliasKey_shape (s : Str) :
    normalizeAliasKey s =
      lowerStr (trimS (stripTrailClose (stripLeadOpen (hashStrip (trimS (nfkc s)))))) :=
  rfl

theorem mem_normalizeAliasKey {s : Str} {x : Nat} (h : x ∈ normalizeAliasKey s) :
    ∃ c, x = lowerChar (nfkcChar c) := by
  rw [normalizeAliasKey_shape] at h
  unfold lowerStr at h
  obtain ⟨y, hy, rfl⟩ := List.mem_map.mp h
  have hy2 := mem_of_mem_trimS hy
  have hy3 := mem_of_mem_stripTrailClose hy2
  have hy4 := mem_of_mem_stripLeadOpen hy3
  have hy5 := mem_of_mem_hashStrip hy4
  have hy6 := mem_of_mem_trimS hy5
  unfold nfkc at hy6
  obtain ⟨c, _, rfl⟩ := List.mem_map.mp hy6
  exact ⟨c, rfl⟩

theorem lowerStr_eq_self_of_image {l : Str}
    (h : ∀ x ∈ l, ∃ c, x = lowerChar (nfkcChar c)) : lowerStr l = l := by
  unfold lowerStr
  calc l.map lowerChar = l.map id := by
        refine List.map_congr_left (fun a ha => ?_)
        obtain ⟨c, rfl⟩ := h a ha
        exact lowerChar_idem (nfkcChar c)
    _ = l := List.map_id l

theorem nfkc_eq_self_of_image {l : Str}
    (h : ∀ x ∈ l, ∃ c, x = lowerChar (nfkcChar c)) : nfkc l = l := by
  unfold nfkc
  calc l.map nfkcChar = l.map id := by
        refine List.map_congr_left (fun a ha => ?_)
        obtain ⟨c, rfl⟩ := h a ha
        exact nfkcChar_lowerChar_nfkcChar c
    _ = l := List.map_id l

theorem trimR_isPrefix (l : List Nat) : trimR l <+: l := by
  unfold trimR
  have h := List.reverse_prefix.mpr (List.dropWhile_suffix (l := l.reverse) isWsC)
  rwa [List.reverse_reverse] at h

theorem head?_of_prefix {l m : List Nat} (h : l <+: m) {c : Nat}
    (hc : l.head? = some c) : m.head? = some c := by
  obtain ⟨t, rfl⟩ := h
  cases l with
  | nil => simp at hc
  | cons a l' =>
    simp only [List.head?_cons, Option.some.injEq] at hc
    simpa using hc

theorem head?_trimS_false (l : List Nat) {c : Nat}
    (h : (trimS l).head? = some c) : isWsC c = false := by
  unfold trimS at h
  have h2 : (trimL l).head? = some c := head?_of_prefix (trimR_isPrefix (trimL l)) h
  unfold trimL at h2
  exact head?_dropWhile_false isWsC l h2

theorem getLast?_trimS_false (l : List Nat) {c : Nat}
    (h : (trimS l).getLast? = some c) : isWsC c = false := by
  unfold trimS trimR at h
  rw [List.getLast?_reverse] at h
  exact head?_dropWhile_false isWsC _ h

theorem trimS_eq_self (l : List Nat)
    (h1 : ∀ c, l.head? = some c → isWsC c = false)
    (h2 : ∀ c, l.getLast? = some c → isWsC c = false) : trimS l = l := by
  unfold trimS trimL trimR
  rw [dropWhile_eq_self_of_head isWsC l h1]
  rw [dropWhile_eq_self_of_head isWsC l.reverse
    (fun c hc => h2 c (by rwa [List.head?_reverse] at hc))]
  exact List.reverse_reverse l

theorem stripLeadOpen_eq_self (l : List Nat)
    (h : ∀ c, l.head? = some c → isOpenBr c = false) : stripLeadOpen l = l :=
  dropWhile_eq_self_of_head isOpenBr l h

theorem stripTrailClose_eq_self (l : List Nat)
    (h : ∀ c, l.getLast? = some c → isCloseP c = false) : stripTrailClose l = l := by
  unfold stripTrailClose
  rw [dropWhile_eq_self_of_head isCloseP l.reverse
    (fun c hc => h c (by rwa [List.head?_reverse] at hc))]
  exact List.reverse_reverse l

theorem hashStrip_eq_self (l : Str) (h : l.head? ≠ some 35) : hashStrip l = l := by
  unfold hashStrip
  rw [if_neg h]

theorem normalizeAliasKey_fixed (r : Str)
    (hmem : ∀ x ∈ r, ∃ c, x = lowerChar (nfkcChar c))
    (hws1 : ∀ c, r.head? = some c → isWsC c = false)
    (hws2 : ∀ c, r.getLast? = some c → isWsC c = false)
    (h1 : r.head? ≠ some 35)
    (h2 : ∀ c, r.head? = some c → isOpenBr c = false)
    (h3 : ∀ c, r.getLast? = some c → isCloseP c = false) :
    normalizeAliasKey r = r := by
  rw [normalizeAliasKey_shape, nfkc_eq_self_of_image hmem, trimS_eq_self r hws1 hws2,
    hashStrip_eq_self r h1, stripLeadOpen_eq_self r h2, stripTrailClose_eq_self r h3,
    trimS_eq_self r hws1 hws2]
  exact lowerStr_eq_self_of_image hmem

theorem head?_normalizeAliasKey_ws (s : Str) {c : Nat}
    (h : (normalizeAliasKey s).head? = some c) : isWsC c = false := by
  rw [normalizeAliasKey_shape] at h
  generalize hX : stripTrailClose (stripLeadOpen (hashStrip (trimS (nfkc s)))) = X at h
  unfold lowerStr at h
  cases hm : trimS X with
  | nil => rw [hm] at h; simp at h
  | cons a t =>
    rw [hm] at h
    simp only [List.map_cons, List.head?_cons, Option.some.injEq] at h
    have ha : isWsC a = false := head?_trimS_false X (by rw [hm]; rfl)
    rw [← h, isWsC_lowerChar]
    exact ha

theorem getLast?_normalizeAliasKey_ws (s : Str) {c : Nat}
    (h : (normalizeAliasKey s).getLast? = some c) : isWsC c = false := by
  rw [normalizeAliasKey_shape] at h
  generalize hX : stripTrailClose (stripLeadOpen (hashStrip (trimS (nfkc s)))) = X at h
  unfold lowerStr at h
  rw [List.getLast?_eq_head?_reverse, ← List.map_reverse] at h
  cases hm : (trimS X).reverse with
  | nil => rw [hm] at h; simp at h
  | cons a t =>
    rw [hm] at h
    simp only [List.map_cons, List.head?_cons, Option.some.injEq] at h
    have ha : isWsC a = false := by
      refine getLast?_trimS_false X (c := a) ?_
      rw [List.getLast?_eq_head?_reverse, hm]
      rfl
    rw [← h, isWsC_lowerChar]
    exact ha

/-- C2 (amended): `normalizeAliasKey` is idempotent on every string whose
normalized form neither begins with `#` or an opening-bracket character nor
ends with a closing-bracket/punctuation character.  (It is not idempotent in
general: only one leading `#` is stripped per pass, so e.g. `"##x"`
normalizes to `"#x"` and only a second pass yields `"x"`.) -/
theorem normalizeAliasKey_idem_of_clean :
    ∀ s : Str,
      (normalizeAliasKey s).headD 0 ≠ 35 →
      isOpenBr ((normalizeAliasKey s).headD 0) = false →
      isCloseP ((normalizeAliasKey s).getLastD 0) = false →
      normalizeAliasKey (normalizeAliasKey s) = normalizeAliasKey s := by
  intro s h1 h2 h3
  apply normalizeAliasKey_fixed
  · exact fun x hx => mem_normalizeAliasKey hx
  · exact fun c hc => head?_normalizeAliasKey_ws s hc
  · exact fun c hc => getLast?_normalizeAliasKey_ws s hc
  · intro hc
    apply h1
    rw [List.headD_eq_head?, hc]
    rfl
  · intro c hc
    rwa [List.headD_eq_head?, hc] at h2
  · intro c hc
    rwa [List.getLastD_eq_getLast?, hc] at h3

/-- C2 (amended, witness): the conditional idempotence evaluated on the
input `" #Health! "`, which normalizes to `"health"`. -/
theorem normalizeAliasKey_idem_of_clean_witness :
    (normalizeAliasKey [32, 35, 72, 101, 97, 108, 116, 104, 33, 32]).headD 0 ≠ 35 ∧
    isOpenBr ((normalizeAliasKey [32, 35, 72, 101, 97, 108, 116, 104, 33, 32]).headD 0) = false ∧
    isCloseP ((normalizeAliasKey [32, 35, 72, 101, 97, 108, 116, 104, 33, 32]).getLastD 0) = false ∧
    normalizeAliasKey (normalizeAliasKey [32, 35, 72, 101, 97, 108, 116, 104, 33, 32]) =
      normalizeAliasKey [32, 35, 72, 101, 97, 108, 116, 104, 33, 32] :=
  ⟨by decide, by decide, by decide,
   normalizeAliasKey_idem_of_clean _ (by decide) (by decide) (by decide)⟩

/-! ### C9: the active-token detector -/

theorem lastIdxHash_none_iff (l : Str) : lastIdxHash l = none ↔ 35 ∉ l := by
  induction l with
  | nil => simp [lastIdxHash]
  | cons c rest ih =>
    cases hr : lastIdxHash rest with
    | some i =>
      have hmem : (35 : Nat) ∈ rest := by
        by_contra hn
        rw [← ih] at hn
        simp [hr] at hn
      simp [lastIdxHash, hr, List.mem_cons, hmem]
    | none =>
      have hnone : (35 : Nat) ∉ rest := (ih).mp hr
      by_cases hc : c = 35
      · subst hc
        simp [lastIdxHash, hr]
      · simp [lastIdxHash, hr, hc, hnone, List.mem_cons]
        omega

theorem lastIdxHash_some_iff (l : Str) (h : Nat) :
    lastIdxHash l = some h ↔
      (l[h]? = some 35 ∧ ∀ j, h < j → l[j]? ≠ some 35) := by
  induction l generalizing h with
  | nil => simp [lastIdxHash]
  | cons c rest ih =>
    cases hr : lastIdxHash rest with
    | some i =>
      have hispec := (ih i).mp hr
      constructor
      · intro hh
        simp only [lastIdxHash, hr] at hh
        obtain rfl : h = i + 1 := by simpa using hh.symm
        refine ⟨by simpa [List.getElem?_cons_succ] using hispec.1, ?_⟩
        intro j hj
        cases j with
        | zero => omega
        | succ k =>
          rw [List.getElem?_cons_succ]
          exact hispec.2 k (by omega)
      · rintro ⟨hget, hlast⟩
        simp only [lastIdxHash, hr]
        cases h with
        | zero =>
          exfalso
          exact hlast (i + 1) (by omega)
            (by rw [List.getElem?_cons_succ]; exact hispec.1)
        | succ k =>
          have hk : lastIdxHash rest = some k := by
            refine (ih k).mpr ⟨by simpa [List.getElem?_cons_succ] using hget, ?_⟩
            intro j hj
            have hj2 := hlast (j + 1) (by omega)
            rwa [List.getElem?_cons_succ] at hj2
          rw [hr] at hk
          simpa using hk
    | none =>
      have hnone : (35 : Nat) ∉ rest := (lastIdxHash_none_iff rest).mp hr
      by_cases hc : c = 35
      · subst hc
        simp only [lastIdxHash, hr, if_pos rfl]
        constructor
        · intro hh
          obtain rfl : h = 0 := by simpa using hh.symm
          refine ⟨by simp, ?_⟩
          intro j hj hget
          cases j with
          | zero => omega
          | succ k =>
            rw [List.getElem?_cons_succ] at hget
            exact hnone (List.mem_iff_getElem?.mpr ⟨k, hget⟩)
        · rintro ⟨hget, hlast⟩
          cases h with
          | zero => rfl
          | succ k =>
            rw [List.getElem?_cons_succ] at hget
            exact absurd (List.mem_iff_getElem?.mpr ⟨k, hget⟩) hnone
      · simp only [lastIdxHash, hr, if_neg hc]
        constructor
        · intro hh
          simp at hh
        · rintro ⟨hget, hlast⟩
          exfalso
          cases h with
          | zero =>
            rw [List.getElem?_cons_zero] at hget
            exact hc (by simpa using hget)
          | succ k =>
            rw [List.getElem?_cons_succ] at hget
            exact hnone (List.mem_iff_getElem?.mpr ⟨k, hget⟩)

/-- C9: full characterization of `getActiveTagToken`.  It returns `none`
exactly when no `#` occurs before the cursor, or the last such `#` has a
preceding non-whitespace character, or whitespace occurs between that `#` and
the cursor; on success it returns the index of the last `#` before the cursor
together with the raw text strictly between the `#` and the cursor, which
begins after a `#` at position 0 or after whitespace and contains no
whitespace. -/
theorem getActiveTagToken_spec :
    ∀ (text : Str) (cursor : Nat),
      (getActiveTagToken text cursor = none ↔
        (35 ∉ text.take cursor ∨
          ∃ h, (text.take cursor)[h]? = some 35 ∧
            (∀ j, h < j → (text.take cursor)[j]? ≠ some 35) ∧
            ((0 < h ∧ isWsC ((text.take cursor).getD (h - 1) 0) = false) ∨
              ∃ c ∈ (text.take cursor).drop (h + 1), isWsC c = true))) ∧
      (∀ h tok, getActiveTagToken text cursor = some (h, tok) →
        (text.take cursor)[h]? = some 35 ∧
        (∀ j, h < j → (text.take cursor)[j]? ≠ some 35) ∧
        (h = 0 ∨ isWsC ((text.take cursor).getD (h - 1) 0) = true) ∧
        tok = (text.take cursor).drop (h + 1) ∧
        ∀ c ∈ tok, isWsC c = false) := by
  intro text cursor
  constructor
  · cases hL : lastIdxHash (text.take cursor) with
    | none =>
      simp only [getActiveTagToken, hL]
      exact ⟨fun _ => Or.inl ((lastIdxHash_none_iff _).mp hL), fun _ => by trivial⟩
    | some h =>
      have hspec := (lastIdxHash_some_iff (text.take cursor) h).mp hL
      simp only [getActiveTagToken, hL]
      by_cases h1 : 0 < h ∧ isWsC ((text.take cursor).getD (h - 1) 0) = false
      · rw [if_pos h1]
        exact ⟨fun _ => Or.inr ⟨h, hspec.1, hspec.2, Or.inl h1⟩, fun _ => by trivial⟩
      · rw [if_neg h1]
        by_cases h2 : ((text.take cursor).drop (h + 1)).any isWsC = true
        · rw [if_pos h2]
          obtain ⟨c, hc, hcws⟩ := List.any_eq_true.mp h2
          exact ⟨fun _ => Or.inr ⟨h, hspec.1, hspec.2, Or.inr ⟨c, hc, hcws⟩⟩,
                 fun _ => by trivial⟩
        · rw [if_neg h2]
          constructor
          · intro hcontra
            simp at hcontra
          · rintro (hno | ⟨h', hg', hl', hrej⟩)
            · exact absurd (List.mem_iff_getElem?.mpr ⟨h, hspec.1⟩) hno
            · obtain rfl : h' = h := by
                have hh' := (lastIdxHash_some_iff (text.take cursor) h').mpr ⟨hg', hl'⟩
                rw [hL] at hh'
                simpa using hh'.symm
              rcases hrej with hrej | ⟨c, hc, hcws⟩
              · exact absurd hrej h1
              · exact absurd (List.any_eq_true.mpr ⟨c, hc, hcws⟩) h2
  · intro h tok hsome
    cases hL : lastIdxHash (text.take cursor) with
    | none =>
      simp only [getActiveTagToken, hL] at hsome
      exact absurd hsome (by simp)
    | some h0 =>
      simp only [getActiveTagToken, hL] at hsome
      split_ifs at hsome with hr1 hr2
      rw [Option.some.injEq, Prod.mk.injEq] at hsome
      obtain ⟨rfl, rfl⟩ := hsome
      have hspec := (lastIdxHash_some_iff (text.take cursor) h0).mp hL
      refine ⟨hspec.1, hspec.2, ?_, rfl, ?_⟩
      · rcases Nat.eq_zero_or_pos h0 with h0z | h0p
        · exact Or.inl h0z
        · right
          by_contra hws
          exact hr1 ⟨h0p, by simpa using hws⟩
      · intro c hc
        have hfalse : ((text.take cursor).drop (h0 + 1)).any isWsC = false := by
          revert hr2
          cases ((text.take cursor).drop (h0 + 1)).any isWsC <;> simp
        have := List.any_eq_false.mp hfalse c hc
        simpa using this

/-- C9 (witness): the characterization evaluated on `"a #he"` with the cursor
at the end: the active token is `"he"` starting at the `#` at index 2. -/
theorem getActiveTagToken_spec_witness :
    ([97, 32, 35, 104, 101].take 5)[2]? = some 35 ∧
    (∀ j, 2 < j → ([97, 32, 35, 104, 101].take 5)[j]? ≠ some 35) ∧
    ((2 : Nat) = 0 ∨ isWsC (([97, 32, 35, 104, 101].take 5).getD (2 - 1) 0) = true) ∧
    [104, 101] = ([97, 32, 35, 104, 101].take 5).drop (2 + 1) ∧
    ∀ c ∈ [104, 101], isWsC c = false :=
  (getActiveTagToken_spec [97, 32, 35, 104, 101] 5).2 2 [104, 101] (by decide)

/-! ### C7: tag extraction, canonicalization, deduplication -/

theorem mem_addTag {acc : List Str} {c t : Str} (h : t ∈ addTag acc c) :
    t ∈ acc ∨ (t = c ∧ c ≠ []) := by
  unfold addTag at h
  split_ifs at h with h1 h2
  · exact Or.inl h
  · exact Or.inl h
  · rcases List.mem_append.mp h with hmem | hmem
    · exact Or.inl hmem
    · exact Or.inr ⟨List.mem_singleton.mp hmem, h1⟩

theorem addTag_nodup {acc : List Str} {c : Str} (h : acc.Nodup) :
    (addTag acc c).Nodup := by
  unfold addTag
  split_ifs with h1 h2
  · exact h
  · exact h
  · rw [← List.concat_eq_append]
    exact List.Nodup.concat h2 h

theorem foldl_addTag_nodup (aliases : TagAliases) (toks : List Str) :
    ∀ acc : List Str, acc.Nodup →
      (toks.foldl
        (fun acc tok =>
          addTag acc (canonicalizeTag (stripTrailClose (stripLeadOpen tok)) aliases))
        acc).Nodup := by
  induction toks with
  | nil => exact fun acc h => h
  | cons tok toks ih =>
    intro acc h
    rw [List.foldl_cons]
    exact ih _ (addTag_nodup h)

set_option maxHeartbeats 1600000 in
theorem mem_foldl_addTag (aliases : TagAliases) (toks : List Str) :
    ∀ (acc : List Str) (t : Str),
      t ∈ toks.foldl
        (fun acc tok =>
          addTag acc (canonicalizeTag (stripTrailClose (stripLeadOpen tok)) aliases))
        acc →
      t ∈ acc ∨ (t ≠ [] ∧ ∃ raw, t = canonicalizeTag raw aliases) := by
  induction toks with
  | nil => exact fun acc t h => Or.inl h
  | cons tok toks ih =>
    intro acc t h
    rw [List.foldl_cons] at h
    rcases ih _ t h with hmem | hnew
    · rcases mem_addTag hmem with hacc | ⟨rfl, hne⟩
      · exact Or.inl hacc
      · exact Or.inr ⟨hne, _, rfl⟩
    · exact Or.inr hnew

/-- C7: `extractTags` deduplicates and canonicalizes: its output never
contains duplicates, every output element is non-empty and is the
canonicalization (dictionary value on a hit, normalized alias key otherwise)
of some raw token; and on the spec's concrete examples,
`extractTags("散歩した #健康 #健康", {})` is exactly `["健康"]` and
`extractTags("walked #health", {health: 健康})` is exactly `["健康"]`. -/
theorem extractTags_dedup_canonicalizes :
    (∀ (text : Str) (aliases : TagAliases), (extractTags text aliases).Nodup) ∧
    (∀ (text : Str) (aliases : TagAliases) (t : Str),
      t ∈ extractTags text aliases →
      t ≠ [] ∧ ∃ raw, t = canonicalizeTag raw aliases) ∧
    extractTags
      [0x6563, 0x6B69, 0x3057, 0x305F, 32, 35, 0x5065, 0x5EB7, 32, 35, 0x5065, 0x5EB7]
      [] = [[0x5065, 0x5EB7]] ∧
    extractTags [119, 97, 108, 107, 101, 100, 32, 35, 104, 101, 97, 108, 116, 104]
      [([104, 101, 97, 108, 116, 104], [0x5065, 0x5EB7])] = [[0x5065, 0x5EB7]] := by
  refine ⟨?_, ?_, by decide, by decide⟩
  · intro text aliases
    exact foldl_addTag_nodup aliases (scanHashTokens text) [] List.nodup_nil
  · intro text aliases t h
    rcases mem_foldl_addTag aliases (scanHashTokens text) [] t h with hmem | hnew
    · simp at hmem
    · exact hnew

/-- C7 (witness): the membership characterization applied to the element
`健康` of the first concrete example. -/
theorem extractTags_dedup_canonicalizes_witness :
    ([0x5065, 0x5EB7] : Str) ≠ [] ∧
    ∃ raw, ([0x5065, 0x5EB7] : Str) = canonicalizeTag raw [] :=
  extractTags_dedup_canonicalizes.2.1
    [0x6563, 0x6B69, 0x3057, 0x305F, 32, 35, 0x5065, 0x5EB7, 32, 35, 0x5065, 0x5EB7]
    [] [0x5065, 0x5EB7] (by decide)

/-! ### Comparator lemmas -/

theorem lexCmp_swap : ∀ x y : Str, lexCmp y x = -(lexCmp x y) := by
  intro x
  induction x with
  | nil => intro y; cases y <;> simp [lexCmp]
  | cons a as ih =>
    intro y
    cases y with
    | nil => simp [lexCmp]
    | cons b bs =>
      simp only [lexCmp]
      split_ifs <;> first | omega | exact ih bs

theorem lexCmp_eq_zero_iff : ∀ x y : Str, lexCmp x y = 0 ↔ x = y := by
  intro x
  induction x with
  | nil => intro y; cases y <;> simp [lexCmp]
  | cons a as ih =>
    intro y
    cases y with
    | nil => simp [lexCmp]
    | cons b bs =>
      simp only [lexCmp]
      split_ifs with h1 h2
      · constructor
        · intro h; exact absurd h (by norm_num)
        · intro h
          injection h with hab _
          omega
      · constructor
        · intro h; exact absurd h (by norm_num)
        · intro h
          injection h with hab _
          omega
      · have hab : a = b := by omega
        subst hab
        rw [ih bs]
        simp

theorem lexCmp_le_trans : ∀ x y z : Str,
    lexCmp x y ≤ 0 → lexCmp y z ≤ 0 → lexCmp x z ≤ 0 := by
  intro x
  induction x with
  | nil =>
    intro y z _ _
    cases z <;> simp [lexCmp]
  | cons a as ih =>
    intro y z h1 h2
    cases y with
    | nil => simp [lexCmp] at h1
    | cons b bs =>
      cases z with
      | nil => simp [lexCmp] at h2
      | cons c cs =>
        simp only [lexCmp] at h1 h2 ⊢
        split_ifs at h1 h2 ⊢ <;> first | omega | exact ih bs cs h1 h2

theorem lexLtB_iff : ∀ x y : Str, lexLtB x y = true ↔ lexCmp x y < 0 := by
  intro x
  induction x with
  | nil => intro y; cases y <;> simp [lexLtB, lexCmp]
  | cons a as ih =>
    intro y
    cases y with
    | nil => simp [lexLtB, lexCmp]
    | cons b bs =>
      simp only [lexLtB, lexCmp]
      split_ifs <;> first | exact ih bs | decide

theorem IsLinCmp.refl_zero {α : Type} {c : α → α → Int} (h : IsLinCmp c) (x : α) :
    c x x = 0 := by
  have := h.swap x x
  omega

theorem IsLinCmp.total {α : Type} {c : α → α → Int} (h : IsLinCmp c) (x y : α) :
    c x y ≤ 0 ∨ c y x ≤ 0 := by
  have := h.swap x y
  omega

theorem IsLinCmp.eq_trans {α : Type} {c : α → α → Int} (h : IsLinCmp c) {x y z : α}
    (hxy : c x y = 0) (hyz : c y z = 0) : c x z = 0 := by
  have h1 := h.trans_le x y z (by omega) (by omega)
  have h2 := h.trans_le z y x (by have := h.swap y z; omega) (by have := h.swap x y; omega)
  have h3 := h.swap x z
  omega

theorem IsLinCmp.neg_of_zero_neg {α : Type} {c : α → α → Int} (h : IsLinCmp c)
    {x y z : α} (hxy : c x y = 0) (hyz : c y z < 0) : c x z < 0 := by
  have h1 : c x z ≤ 0 := h.trans_le x y z (by omega) (by omega)
  by_contra hcon
  have hxz : c x z = 0 := by omega
  have h2 : c z x = 0 := by have := h.swap x z; omega
  have h3 := h.trans_le z x y (by omega) (by omega)
  have h4 := h.swap y z
  omega

theorem IsLinCmp.neg_of_neg_zero {α : Type} {c : α → α → Int} (h : IsLinCmp c)
    {x y z : α} (hxy : c x y < 0) (hyz : c y z = 0) : c x z < 0 := by
  have h1 : c x z ≤ 0 := h.trans_le x y z (by omega) (by omega)
  by_contra hcon
  have hxz : c x z = 0 := by omega
  have h2 : c z x = 0 := by have := h.swap x z; omega
  have h3 := h.trans_le y z x (by omega) (by omega)
  have h4 := h.swap x y
  omega

theorem IsLinCmp.neg_trans {α : Type} {c : α → α → Int} (h : IsLinCmp c)
    {x y z : α} (hxy : c x y < 0) (hyz : c y z < 0) : c x z < 0 := by
  have h1 : c x z ≤ 0 := h.trans_le x y z (by omega) (by omega)
  by_contra hcon
  have hxz : c x z = 0 := by omega
  have h2 : c z x = 0 := by have := h.swap x z; omega
  have h3 := h.trans_le z x y (by omega) (by omega)
  have h4 := h.swap y z
  omega

theorem IsLinCmp.chain {α : Type} {c d : α → α → Int}
    (hc : IsLinCmp c) (hd : IsLinCmp d) : IsLinCmp (chainCmp c d) := by
  constructor
  · intro x y
    unfold chainCmp
    by_cases h : c x y = 0
    · have h' : c y x = 0 := by have := hc.swap x y; omega
      simp [h, h', hd.swap x y]
    · have h' : ¬c y x = 0 := by have := hc.swap x y; omega
      simp [h, h', hc.swap x y]
  · intro x y z hxy hyz
    unfold chainCmp at hxy hyz ⊢
    by_cases h1 : c x y = 0 <;> by_cases h2 : c y z = 0
    · rw [if_pos h1] at hxy
      rw [if_pos h2] at hyz
      rw [if_pos (hc.eq_trans h1 h2)]
      exact hd.trans_le x y z hxy hyz
    · rw [if_pos h1] at hxy
      rw [if_neg h2] at hyz
      have h4 : c x z < 0 := hc.neg_of_zero_neg h1 (by omega)
      rw [if_neg (by omega)]
      omega
    · rw [if_neg h1] at hxy
      rw [if_pos h2] at hyz
      have h4 : c x z < 0 := hc.neg_of_neg_zero (by omega) h2
      rw [if_neg (by omega)]
      omega
    · rw [if_neg h1] at hxy
      rw [if_neg h2] at hyz
      have h4 : c x z < 0 := hc.neg_trans (y := y) (by omega) (by omega)
      rw [if_neg (by omega)]
      omega

theorem isLinCmp_natDesc {α : Type} (f : α → Nat) :
    IsLinCmp (fun x y => (f y : Int) - (f x : Int)) :=
  ⟨fun x y => by omega, fun x y z h1 h2 => by omega⟩

theorem isLinCmp_boolDesc {α : Type} (g : α → Prop) [DecidablePred g] :
    IsLinCmp (fun x y => (if g y then (1 : Int) else 0) - (if g x then (1 : Int) else 0)) := by
  constructor
  · intro x y
    split_ifs <;> omega
  · intro x y z h1 h2
    split_ifs at h1 h2 ⊢ <;> omega

theorem isLinCmp_lexDesc {α : Type} (g : α → Str) :
    IsLinCmp (fun x y => lexCmp (g y) (g x)) :=
  ⟨fun x y => lexCmp_swap (g y) (g x),
   fun x y z h1 h2 => lexCmp_le_trans (g z) (g y) (g x) h2 h1⟩

theorem isLinCmp_lexAsc {α : Type} (g : α → Str) :
    IsLinCmp (fun x y => lexCmp (g x) (g y)) :=
  ⟨fun x y => lexCmp_swap (g x) (g y),
   fun x y z h1 h2 => lexCmp_le_trans (g x) (g y) (g z) h1 h2⟩

theorem chainCmp_neg_iff {α : Type} {c d : α → α → Int} {x y : α} :
    chainCmp c d x y < 0 ↔ (c x y < 0 ∨ (c x y = 0 ∧ d x y < 0)) := by
  unfold chainCmp
  split_ifs with h <;> simp [h]

theorem chainCmp_eq_zero_iff {α : Type} {c d : α → α → Int} {x y : α} :
    chainCmp c d x y = 0 ↔ (c x y = 0 ∧ d x y = 0) := by
  unfold chainCmp
  split_ifs with h <;> simp [h]

/-! ### C6: the suggestion ranking -/

theorem cmpSug_eq_chain (a b : TagSuggestion) :
    cmpSug a b =
      chainCmp
        (fun x y => (if 0 < y.recent7Count then (1 : Int) else 0) -
          (if 0 < x.recent7Count then (1 : Int) else 0))
        (chainCmp (fun x y => (y.recent7Count : Int) - (x.recent7Count : Int))
          (chainCmp (fun x y => lexCmp y.lastSeenYmd x.lastSeenYmd)
            (chainCmp (fun x y => (y.totalCount : Int) - (x.totalCount : Int))
              (fun x y => lexCmp x.tag y.tag)))) a b := by
  simp only [cmpSug, chainCmp]
  by_cases e3 : b.lastSeenYmd = a.lastSeenYmd
  · have e3c : lexCmp b.lastSeenYmd a.lastSeenYmd = 0 := (lexCmp_eq_zero_iff _ _).mpr e3
    split_ifs <;> first | omega | simp_all
  · have e3c : lexCmp b.lastSeenYmd a.lastSeenYmd ≠ 0 :=
      fun hc => e3 ((lexCmp_eq_zero_iff _ _).mp hc)
    split_ifs <;> omega

theorem isLinCmp_cmpSug : IsLinCmp cmpSug := by
  have h :=
    (isLinCmp_boolDesc (fun x : TagSuggestion => 0 < x.recent7Count)).chain
      ((isLinCmp_natDesc (fun x : TagSuggestion => x.recent7Count)).chain
        ((isLinCmp_lexDesc (fun x : TagSuggestion => x.lastSeenYmd)).chain
          ((isLinCmp_natDesc (fun x : TagSuggestion => x.totalCount)).chain
            (isLinCmp_lexAsc (fun x : TagSuggestion => x.tag)))))
  constructor
  · intro x y
    rw [cmpSug_eq_chain, cmpSug_eq_chain]
    exact h.swap x y
  · intro x y z h1 h2
    rw [cmpSug_eq_chain] at h1 h2 ⊢
    exact h.trans_le x y z h1 h2

theorem cmpSug_neg_iff_rankLT (a b : TagSuggestion) :
    cmpSug a b < 0 ↔ rankLT a b := by
  rw [cmpSug_eq_chain, chainCmp_neg_iff]
  unfold rankLT
  refine or_congr ?_ (and_congr ?_ ?_)
  · split_ifs <;> omega
  · split_ifs <;> omega
  · rw [chainCmp_neg_iff]
    refine or_congr (by omega) (and_congr (by omega) ?_)
    rw [chainCmp_neg_iff]
    refine or_congr ?_ (and_congr ?_ ?_)
    · exact (lexLtB_iff _ _).symm
    · rw [lexCmp_eq_zero_iff]; exact eq_comm
    · rw [chainCmp_neg_iff]
      refine or_congr (by omega) (and_congr (by omega) ?_)
      exact (lexLtB_iff _ _).symm

theorem cmpSug_eq_zero_tag_eq {a b : TagSuggestion} (h : cmpSug a b = 0) :
    a.tag = b.tag := by
  rw [cmpSug_eq_chain, chainCmp_eq_zero_iff] at h
  rw [chainCmp_eq_zero_iff] at h
  have h2 := h.2.2
  rw [chainCmp_eq_zero_iff] at h2
  have h3 := h2.2
  rw [chainCmp_eq_zero_iff] at h3
  exact (lexCmp_eq_zero_iff _ _).mp h3.2

theorem foldl_preserve {β γ : Type} (P : γ → Prop) (step : γ → β → γ)
    (hstep : ∀ acc b, P acc → P (step acc b)) :
    ∀ (l : List β) (acc : γ), P acc → P (l.foldl step acc) := by
  intro l
  induction l with
  | nil => exact fun acc h => h
  | cons b l ih =>
    intro acc h
    rw [List.foldl_cons]
    exact ih _ (hstep acc b h)

theorem keys_nodup_statSet {m : List (Str × StatM)} {t : Str} {v : StatM}
    (h : (m.map Prod.fst).Nodup) : ((statSet m t v).map Prod.fst).Nodup := by
  unfold statSet
  split_ifs with hf
  · have hkeys : ((m.map (fun p => if p.1 = t then (p.1, v) else p)).map Prod.fst) =
        m.map Prod.fst := by
      rw [List.map_map]
      exact List.map_congr_left (fun p _ => by by_cases hp : p.1 = t <;> simp [hp])
    rw [hkeys]
    exact h
  · have ht : t ∉ m.map Prod.fst := by
      intro hmem
      obtain ⟨p, hp, hpt⟩ := List.mem_map.mp hmem
      have hnone : m.find? (fun p => p.1 = t) = none :=
        Option.not_isSome_iff_eq_none.mp hf
      have := List.find?_eq_none.mp hnone p hp
      exact this (by simp [hpt])
    rw [List.map_append]
    simp only [List.map_cons, List.map_nil]
    rw [← List.concat_eq_append]
    exact List.Nodup.concat ht h

theorem keys_nodup_bumpStat (r : Bool) (y : Str) {m : List (Str × StatM)} {t : Str}
    (h : (m.map Prod.fst).Nodup) : ((bumpStat r y m t).map Prod.fst).Nodup := by
  unfold bumpStat
  exact keys_nodup_statSet h

theorem keys_nodup_buildStats (recentYmds : List Str) (entries : List DayEntrySt)
    (aliases : TagAliases) :
    ((buildStats recentYmds entries aliases).map Prod.fst).Nodup := by
  unfold buildStats
  exact foldl_preserve (fun m : List (Str × StatM) => (m.map Prod.fst).Nodup) _
    (fun m e hm =>
      foldl_preserve (fun m : List (Str × StatM) => (m.map Prod.fst).Nodup) _
        (fun m2 it hm2 =>
          foldl_preserve (fun m : List (Str × StatM) => (m.map Prod.fst).Nodup) _
            (fun m3 t hm3 => keys_nodup_bumpStat _ _ hm3)
            (extractTags it.text aliases) m2 hm2)
        e.day.items m hm)
    entries [] List.nodup_nil

theorem pairwise_rankLT_insertionSort (arr : List TagSuggestion)
    (hnd : (arr.map (fun s => s.tag)).Nodup) :
    (List.insertionSort (fun a b => cmpSug a b ≤ 0) arr).Pairwise rankLT := by
  haveI htot : IsTotal TagSuggestion (fun a b => cmpSug a b ≤ 0) :=
    ⟨fun a b => isLinCmp_cmpSug.total a b⟩
  haveI htr : IsTrans TagSuggestion (fun a b => cmpSug a b ≤ 0) :=
    ⟨fun a b c => isLinCmp_cmpSug.trans_le a b c⟩
  have hsorted : (List.insertionSort (fun a b => cmpSug a b ≤ 0) arr).Pairwise
      (fun a b => cmpSug a b ≤ 0) :=
    List.sorted_insertionSort (fun a b => cmpSug a b ≤ 0) arr
  have hperm := List.perm_insertionSort (fun a b => cmpSug a b ≤ 0) arr
  have hnd2 : ((List.insertionSort (fun a b => cmpSug a b ≤ 0) arr).map
      (fun s => s.tag)).Nodup :=
    (hperm.map (fun s : TagSuggestion => s.tag)).nodup_iff.mpr hnd
  have htagne : (List.insertionSort (fun a b => cmpSug a b ≤ 0) arr).Pairwise
      (fun a b => a.tag ≠ b.tag) := List.pairwise_map.mp hnd2
  refine (hsorted.and htagne).imp ?_
  intro a b hab
  rcases lt_or_eq_of_le hab.1 with hlt | heq
  · exact (cmpSug_neg_iff_rankLT a b).mp hlt
  · exact absurd (cmpSug_eq_zero_tag_eq heq) hab.2

theorem buildTagSuggestions_eq_sort (recentYmds : List Str)
    (entries : List DayEntrySt) (aliases : TagAliases) :
    buildTagSuggestions recentYmds entries aliases =
      List.insertionSort (fun a b => cmpSug a b ≤ 0)
        ((buildStats recentYmds entries aliases).map (fun ts =>
          { tag := ts.1, totalCount := ts.2.total, recent7Count := ts.2.recent7,
            lastSeenYmd := ts.2.lastSeen,
            matchKeys := lowerStr (trimS (nfkc ts.1)) ::
              invGet (invertAliases aliases) ts.1 })) :=
  rfl

/-- C6: `buildTagSuggestions` orders its output exactly by the five-key
ranking — the output is strictly sorted by `rankLT` (any recent-7-day
occurrence first, then recent-7-day count descending, last-seen date
descending by zero-padded date string, total count descending, tag
ascending) — and in particular every suggestion with a recent-7-day
occurrence is placed strictly before every suggestion with none. -/
theorem buildTagSuggestions_ranking :
    ∀ (recentYmds : List Str) (entries : List DayEntrySt) (aliases : TagAliases),
      (buildTagSuggestions recentYmds entries aliases).Pairwise rankLT ∧
      ∀ i j : Fin (buildTagSuggestions recentYmds entries aliases).length,
        ((buildTagSuggestions recentYmds entries aliases).get i).recent7Count = 0 →
        0 < ((buildTagSuggestions recentYmds entries aliases).get j).recent7Count →
        (j : Nat) < (i : Nat) := by
  intro recentYmds entries aliases
  have hpair : (buildTagSuggestions recentYmds entries aliases).Pairwise rankLT := by
    rw [buildTagSuggestions_eq_sort]
    refine pairwise_rankLT_insertionSort _ ?_
    rw [List.map_map]
    exact keys_nodup_buildStats recentYmds entries aliases
  refine ⟨hpair, ?_⟩
  intro i j hi hj
  by_contra hcon
  push_neg at hcon
  rcases eq_or_lt_of_le hcon with heq | hlt
  · have : i = j := Fin.ext heq
    subst this
    omega
  · have hR := List.pairwise_iff_get.mp hpair i j hlt
    rcases hR with ⟨hpos, _⟩ | ⟨hiff, _⟩
    · omega
    · have := hiff.mpr hj
      omega

/-- C6 (witness): on the spec's example — `健康` on three window days,
`仕事` on one out-of-window day — `健康` (index 0) ranks strictly before
`仕事` (index 1). -/
theorem buildTagSuggestions_ranking_witness :
    ((buildTagSuggestions sugWindow sugEntries []).get ⟨1, by decide⟩).recent7Count = 0 ∧
    0 < ((buildTagSuggestions sugWindow sugEntries []).get ⟨0, by decide⟩).recent7Count ∧
    ((0 : Nat) < (1 : Nat)) :=
  ⟨by decide, by decide,
   (buildTagSuggestions_ranking sugWindow sugEntries []).2 ⟨1, by decide⟩ ⟨0, by decide⟩
     (by decide) (by decide)⟩

/-! ### C10: the diary-side storage scan -/

theorem mem_dedupFirstYmd : ∀ (seen : List Str) (l : List DayEntryD) (e : DayEntryD),
    e ∈ dedupFirstYmd seen l ↔
      (e.ymd ∉ seen ∧ l.find? (fun x => x.ymd = e.ymd) = some e) := by
  intro seen l
  induction l generalizing seen with
  | nil => intro e; simp [dedupFirstYmd]
  | cons x t ih =>
    intro e
    by_cases hx : x.ymd ∈ seen
    · simp only [dedupFirstYmd, if_pos hx]
      by_cases hxy : x.ymd = e.ymd
      · have he : e.ymd ∈ seen := hxy ▸ hx
        rw [List.find?_cons_of_pos _ (by simp [hxy])]
        rw [ih seen e]
        constructor
        · rintro ⟨hns, _⟩
          exact absurd he hns
        · rintro ⟨hns, _⟩
          exact absurd he hns
      · rw [List.find?_cons_of_neg _ (by simp [hxy])]
        exact ih seen e
    · simp only [dedupFirstYmd, if_neg hx]
      by_cases hxy : x.ymd = e.ymd
      · rw [List.find?_cons_of_pos _ (by simp [hxy])]
        constructor
        · intro hmem
          rcases List.mem_cons.mp hmem with rfl | hmem2
          · exact ⟨hxy ▸ hx, rfl⟩
          · obtain ⟨hns, _⟩ := (ih (x.ymd :: seen) e).mp hmem2
            exact absurd (hxy ▸ List.mem_cons_self x.ymd seen) hns
        · rintro ⟨hns, hsome⟩
          obtain rfl : x = e := by simpa using hsome
          exact List.mem_cons_self _ _
      · rw [List.find?_cons_of_neg _ (by simp [hxy])]
        constructor
        · intro hmem
          rcases List.mem_cons.mp hmem with rfl | hmem2
          · exact absurd rfl hxy
          · obtain ⟨hns, hfind⟩ := (ih (x.ymd :: seen) e).mp hmem2
            exact ⟨fun hc => hns (List.mem_cons_of_mem _ hc), hfind⟩
        · rintro ⟨hns, hfind⟩
          refine List.mem_cons_of_mem _ ((ih (x.ymd :: seen) e).mpr ⟨?_, hfind⟩)
          intro hc
          rcases List.mem_cons.mp hc with heq | hc2
          · exact hxy heq.symm
          · exact hns hc2

theorem nodup_dedupFirstYmd : ∀ (seen : List Str) (l : List DayEntryD),
    ((dedupFirstYmd seen l).map (fun e => e.ymd)).Nodup ∧
    ∀ y ∈ (dedupFirstYmd seen l).map (fun e => e.ymd), y ∉ seen := by
  intro seen l
  induction l generalizing seen with
  | nil => simp [dedupFirstYmd]
  | cons x t ih =>
    by_cases hx : x.ymd ∈ seen
    · simp only [dedupFirstYmd, if_pos hx]
      exact ih seen
    · simp only [dedupFirstYmd, if_neg hx, List.map_cons]
      obtain ⟨ih1, ih2⟩ := ih (x.ymd :: seen)
      constructor
      · rw [List.nodup_cons]
        exact ⟨fun hc => (ih2 _ hc) (List.mem_cons_self _ _), ih1⟩
      · intro y hy
        rcases List.mem_cons.mp hy with rfl | hy2
        · exact hx
        · exact fun hc => (ih2 y hy2) (List.mem_cons_of_mem _ hc)

/-- C10: the diary-side `scanDaysFromStorage` returns entries whose `ymd`
values are strictly descending (hence pairwise distinct), and an entry is in
the output exactly when it is the first record carrying its `ymd` in
storage-key enumeration order among the valid parsed records. -/
theorem scanDaysDiary_sorted_firstWins :
    ∀ st : StorageM,
      (scanDaysFromStorageDiary st).Pairwise (fun a b => lexLtB b.ymd a.ymd = true) ∧
      ∀ e : DayEntryD,
        e ∈ scanDaysFromStorageDiary st ↔
          (rawDayEntries st).find? (fun x => x.ymd = e.ymd) = some e := by
  intro st
  haveI htot : IsTotal DayEntryD (fun a b => lexCmp b.ymd a.ymd ≤ 0) :=
    ⟨fun a b => (isLinCmp_lexDesc (fun e : DayEntryD => e.ymd)).total a b⟩
  haveI htr : IsTrans DayEntryD (fun a b => lexCmp b.ymd a.ymd ≤ 0) :=
    ⟨fun a b c => (isLinCmp_lexDesc (fun e : DayEntryD => e.ymd)).trans_le a b c⟩
  have hperm := List.perm_insertionSort (fun a b => lexCmp b.ymd a.ymd ≤ 0)
    (dedupFirstYmd [] (rawDayEntries st))
  constructor
  · have hsorted : (scanDaysFromStorageDiary st).Pairwise
        (fun a b => lexCmp b.ymd a.ymd ≤ 0) :=
      List.sorted_insertionSort _ _
    have hnd : ((scanDaysFromStorageDiary st).map (fun e => e.ymd)).Nodup := by
      unfold scanDaysFromStorageDiary
      exact (hperm.map (fun e : DayEntryD => e.ymd)).nodup_iff.mpr
        (nodup_dedupFirstYmd [] (rawDayEntries st)).1
    have hne : (scanDaysFromStorageDiary st).Pairwise (fun a b => a.ymd ≠ b.ymd) :=
      List.pairwise_map.mp hnd
    refine (hsorted.and hne).imp ?_
    rintro a b ⟨hle, hneq⟩
    rw [lexLtB_iff]
    rcases lt_or_eq_of_le hle with h | h
    · exact h
    · exact absurd ((lexCmp_eq_zero_iff _ _).mp h).symm hneq
  · intro e
    unfold scanDaysFromStorageDiary
    rw [hperm.mem_iff, mem_dedupFirstYmd [] (rawDayEntries st) e]
    simp

/-- C10 (witness): with two stored records carrying the same date, the record
under the first-enumerated key is the one the scan keeps. -/
theorem scanDaysDiary_sorted_firstWins_witness :
    (⟨ymdA, ⟨ymdA, [], none, [], []⟩, [107, 49]⟩ : DayEntryD) ∈
      scanDaysFromStorageDiary stgDup :=
  ((scanDaysDiary_sorted_firstWins stgDup).2
    ⟨ymdA, ⟨ymdA, [], none, [], []⟩, [107, 49]⟩).mpr (by decide)

/-! ### C4: coordinator throttling and in-flight jobs -/

theorem requestDays_preserves_inv (now : Int) (tIso : Str) (req : RefreshReq)
    (s : DaysSys) (ih : daysCoordInv s) :
    daysCoordInv (requestDaysRefresh now tIso req s) := by
  simp only [requestDaysRefresh]
  split_ifs with h1 h2 h3
  · exact ih
  · exact ⟨fun h => ih.1 h, fun id h => ih.2 id h⟩
  · exact ⟨fun h => ih.1 h, fun id h => ih.2 id h⟩
  · have hnone : s.jobCancel = none := Option.not_isSome_iff_eq_none.mp (by simpa using h2)
    have hpend : s.pending = [] := ih.1 hnone
    constructor
    · intro h
      simp at h
    · intro id h
      have hid : s.nextJob = id := by simpa using h
      exact ⟨req.force.getD false, by simp [hpend, hid]⟩

theorem reachDays_inv : ∀ s, ReachDays s → daysCoordInv s := by
  intro s h
  induction h with
  | init st => exact ⟨fun _ => rfl, fun id h => by simp [initDaysSys] at h⟩
  | step hr hstep ih =>
    cases hstep with
    | request now tIso req => exact requestDays_preserves_inv now tIso req _ ih
    | cancel =>
      rename_i s0
      unfold cancelDaysRefresh
      cases hjc : s0.jobCancel with
      | none =>
        exact ⟨fun _ => ih.1 hjc, fun id h => by simp at h⟩
      | some id =>
        obtain ⟨f, hpend⟩ := ih.2 id hjc
        refine ⟨fun _ => ?_, fun id' h => by simp at h⟩
        simp [hpend]
    | run tIso j hj =>
      rename_i s0
      unfold runDaysIdleJob
      cases hjc : s0.jobCancel with
      | none =>
        rw [ih.1 hjc] at hj
        simp at hj
      | some id =>
        obtain ⟨f, hpend⟩ := ih.2 id hjc
        rw [hpend] at hj
        have hje : j = ⟨id, f, JobKind.idle⟩ := by simpa using hj
        refine ⟨fun _ => ?_, fun id' h => by simp at h⟩
        simp [hpend, hje]
    | load tIso force => exact ⟨ih.1, ih.2⟩
    | markDirty => exact ⟨ih.1, ih.2⟩
    | mutate st => exact ⟨ih.1, ih.2⟩

theorem requestAlias_preserves_inv (now : Int) (req : RefreshReq)
    (s : AliasSys) (ih : aliasCoordInv s) :
    aliasCoordInv (requestTagAliasesRefresh now req s) := by
  obtain ⟨ihn, ihb, ihc, ihs⟩ := ih
  simp only [requestTagAliasesRefresh]
  split_ifs with h1 h2 h3
  · exact ⟨ihn, ihb, ihc, ihs⟩
  · exact ⟨ihn, ihb, ihc, ihs⟩
  · have hnone : s.scheduledCancel = none :=
      Option.not_isSome_iff_eq_none.mp (by simpa using h2)
    refine ⟨?_, ?_, ?_, ?_⟩
    · rw [List.map_append]
      simp only [List.map_cons, List.map_nil]
      rw [← List.concat_eq_append]
      refine List.Nodup.concat ?_ ihn
      intro hc
      obtain ⟨x, hxmem, hxid⟩ := List.mem_map.mp hc
      have := ihb x hxmem
      omega
    · intro x hx
      show x.id < s.nextJob + 1
      rcases List.mem_append.mp hx with hx | hx
      · have := ihb x hx
        omega
      · have hxe : x = ⟨s.nextJob, req.force.getD false, JobKind.timeout⟩ := by simpa using hx
        rw [hxe]
        exact Nat.lt_succ_self _
    · intro _
      rw [List.filter_append, ihc hnone]
      simp
    · intro id h
      have : s.scheduledCancel = some id := by simpa using h
      rw [hnone] at this
      exact absurd this (by simp)
  · have hnone : s.scheduledCancel = none :=
      Option.not_isSome_iff_eq_none.mp (by simpa using h2)
    refine ⟨?_, ?_, ?_, ?_⟩
    · rw [List.map_append]
      simp only [List.map_cons, List.map_nil]
      rw [← List.concat_eq_append]
      refine List.Nodup.concat ?_ ihn
      intro hc
      obtain ⟨x, hxmem, hxid⟩ := List.mem_map.mp hc
      have := ihb x hxmem
      omega
    · intro x hx
      show x.id < s.nextJob + 1
      rcases List.mem_append.mp hx with hx | hx
      · have := ihb x hx
        omega
      · have hxe : x = ⟨s.nextJob, req.force.getD false, JobKind.idle⟩ := by simpa using hx
        rw [hxe]
        exact Nat.lt_succ_self _
    · intro h
      simp at h
    · intro id h
      have hid : s.nextJob = id := by simpa using h
      refine ⟨req.force.getD false, ?_⟩
      rw [List.filter_append, ihc hnone, hid]
      simp

theorem runAlias_preserves_inv (j : JobM) (s : AliasSys) (hj : j ∈ s.pending)
    (ih : aliasCoordInv s) : aliasCoordInv (runAliasJob j s) := by
  obtain ⟨ihn, ihb, ihc, ihs⟩ := ih
  unfold runAliasJob
  cases hk : j.kind with
  | timeout =>
    refine ⟨?_, ?_, ?_, ?_⟩
    · exact List.Nodup.sublist ((List.filter_sublist s.pending).map _) ihn
    · intro x hx
      exact ihb x (List.mem_filter.mp hx).1
    · intro h
      have h0 : s.pending.filter (fun x => x.kind = JobKind.idle) = [] := ihc (by simpa using h)
      rw [List.filter_filter]
      rw [List.filter_eq_nil_iff]
      intro a ha
      have := List.filter_eq_nil_iff.mp h0 a ha
      simp at this ⊢
      intro hkind
      exact absurd hkind this
    · intro id h
      obtain ⟨f, hf⟩ := ihs id (by simpa using h)
      have hidle_mem : (⟨id, f, JobKind.idle⟩ : JobM) ∈ s.pending := by
        have hm : (⟨id, f, JobKind.idle⟩ : JobM) ∈
            s.pending.filter (fun x => x.kind = JobKind.idle) := by
          rw [hf]
          exact List.mem_cons_self _ _
        exact (List.mem_filter.mp hm).1
      have hne : id ≠ j.id := by
        intro he
        have heq : (⟨id, f, JobKind.idle⟩ : JobM) = j :=
          List.inj_on_of_nodup_map ihn hidle_mem hj (by simpa using he)
        rw [← heq] at hk
        simp at hk
      refine ⟨f, ?_⟩
      calc (s.pending.filter (fun x => x.id ≠ j.id)).filter
            (fun x => x.kind = JobKind.idle)
          = s.pending.filter
              (fun a => decide (a.kind = JobKind.idle) && decide (¬a.id = j.id)) :=
            List.filter_filter _ _
        _ = s.pending.filter
              (fun a => decide (¬a.id = j.id) && decide (a.kind = JobKind.idle)) :=
            List.filter_congr (fun a _ => Bool.and_comm _ _)
        _ = (s.pending.filter (fun x => x.kind = JobKind.idle)).filter
              (fun x => x.id ≠ j.id) := (List.filter_filter _ _).symm
        _ = [⟨id, f, JobKind.idle⟩] := by
            rw [hf]
            simp [hne]
  | idle =>
    refine ⟨?_, ?_, ?_, ?_⟩
    · exact List.Nodup.sublist ((List.filter_sublist s.pending).map _) ihn
    · intro x hx
      exact ihb x (List.mem_filter.mp hx).1
    · intro _
      cases hsc : s.scheduledCancel with
      | none =>
        have h0 := ihc hsc
        have hm : j ∈ s.pending.filter (fun x => x.kind = JobKind.idle) :=
          List.mem_filter.mpr ⟨hj, by simp [hk]⟩
        rw [h0] at hm
        simp at hm
      | some sid =>
        obtain ⟨f, hf⟩ := ihs sid hsc
        have hm : j ∈ s.pending.filter (fun x => x.kind = JobKind.idle) :=
          List.mem_filter.mpr ⟨hj, by simp [hk]⟩
        rw [hf] at hm
        have hje : j = ⟨sid, f, JobKind.idle⟩ := by simpa using hm
        calc (s.pending.filter (fun x => x.id ≠ j.id)).filter
              (fun x => x.kind = JobKind.idle)
            = s.pending.filter
                (fun a => decide (a.kind = JobKind.idle) && decide (¬a.id = j.id)) :=
              List.filter_filter _ _
          _ = s.pending.filter
                (fun a => decide (¬a.id = j.id) && decide (a.kind = JobKind.idle)) :=
              List.filter_congr (fun a _ => Bool.and_comm _ _)
          _ = (s.pending.filter (fun x => x.kind = JobKind.idle)).filter
                (fun x => x.id ≠ j.id) := (List.filter_filter _ _).symm
          _ = [] := by
              rw [hf]
              simp [hje]
    · intro id h
      simp at h

theorem reachAlias_inv : ∀ s, ReachAlias s → aliasCoordInv s := by
  intro s h
  induction h with
  | init sl =>
    exact ⟨by simp [initAliasSys], by simp [initAliasSys],
           fun _ => by simp [initAliasSys], fun id h => by simp [initAliasSys] at h⟩
  | step hr hstep ih =>
    cases hstep with
    | request now req => exact requestAlias_preserves_inv now req _ ih
    | run j hj => exact runAlias_preserves_inv j _ hj ih
    | reload force => exact ⟨ih.1, ih.2.1, ih.2.2.1, ih.2.2.2⟩
    | markDirty => exact ⟨ih.1, ih.2.1, ih.2.2.1, ih.2.2.2⟩
    | setSlot sl => exact ⟨ih.1, ih.2.1, ih.2.2.1, ih.2.2.2⟩
    | saveNotify now aliases =>
      exact requestAlias_preserves_inv now _ _ ⟨ih.1, ih.2.1, ih.2.2.1, ih.2.2.2⟩
    | resetNotify now =>
      exact requestAlias_preserves_inv now _ _ ⟨ih.1, ih.2.1, ih.2.2.1, ih.2.2.2⟩

/-- C4 (amended): the throttle drops non-forced requests inside the window
without any state change, and any request arriving while the tracked idle job
is pending schedules nothing and runs nothing, on both coordinators; in every
reachable days-coordinator state at most one scheduled job of any kind
exists, and in every reachable alias-coordinator state at most one
idle-deferred job exists — but the alias coordinator's immediate requests
schedule untracked next-tick timeout jobs, so its total number of scheduled
jobs can exceed one. -/
theorem coordinator_throttle_and_single_inflight :
    (∀ s, ReachDays s → s.pending.length ≤ 1) ∧
    (∀ s, ReachAlias s →
      (s.pending.filter (fun j => j.kind = JobKind.idle)).length ≤ 1) ∧
    (∀ (s : DaysSys) (now : Int) (tIso : Str) (req : RefreshReq),
      req.force.getD false = false →
      now - s.lastRequestedAt < req.throttleMs.getD 500 →
      requestDaysRefresh now tIso req s = s) ∧
    (∀ (s : AliasSys) (now : Int) (req : RefreshReq),
      req.force.getD false = false →
      now - s.refreshGateMs < req.throttleMs.getD 500 →
      requestTagAliasesRefresh now req s = s) ∧
    (∀ (s : DaysSys) (now : Int) (tIso : Str) (req : RefreshReq),
      s.jobCancel.isSome = true →
      (requestDaysRefresh now tIso req s).pending = s.pending ∧
      (requestDaysRefresh now tIso req s).jobCancel = s.jobCancel ∧
      (requestDaysRefresh now tIso req s).store = s.store) ∧
    (∀ (s : AliasSys) (now : Int) (req : RefreshReq),
      s.scheduledCancel.isSome = true →
      (requestTagAliasesRefresh now req s).pending = s.pending ∧
      (requestTagAliasesRefresh now req s).scheduledCancel = s.scheduledCancel ∧
      (requestTagAliasesRefresh now req s).store = s.store) := by
  refine ⟨?_, ?_, ?_, ?_, ?_, ?_⟩
  · intro s h
    have hinv := reachDays_inv s h
    cases hjc : s.jobCancel with
    | none => simp [hinv.1 hjc]
    | some id =>
      obtain ⟨f, hpend⟩ := hinv.2 id hjc
      simp [hpend]
  · intro s h
    have hinv := reachAlias_inv s h
    cases hsc : s.scheduledCancel with
    | none => simp [hinv.2.2.1 hsc]
    | some id =>
      obtain ⟨f, hf⟩ := hinv.2.2.2 id hsc
      simp [hf]
  · intro s now tIso req h1 h2
    simp only [requestDaysRefresh]
    rw [if_pos ⟨h1, h2⟩]
  · intro s now req h1 h2
    simp only [requestTagAliasesRefresh]
    rw [if_pos ⟨h1, h2⟩]
  · intro s now tIso req h
    simp only [requestDaysRefresh]
    split_ifs with h1
    · exact ⟨rfl, rfl, rfl⟩
    · exact ⟨rfl, rfl, rfl⟩
  · intro s now req h
    simp only [requestTagAliasesRefresh]
    split_ifs with h1
    · exact ⟨rfl, rfl, rfl⟩
    · exact ⟨rfl, rfl, rfl⟩

/-- C4 (amended, witness): the amended properties evaluated at concrete
states — the initial states, a throttled request, and a request arriving
while the idle job is pending. -/
theorem coordinator_throttle_and_single_inflight_witness :
    (initDaysSys stgEmpty).pending.length ≤ 1 ∧
    ((initAliasSys .absent).pending.filter
      (fun j => j.kind = JobKind.idle)).length ≤ 1 ∧
    requestDaysRefresh 100 [] ⟨none, none, none⟩ (initDaysSys stgEmpty) =
      initDaysSys stgEmpty ∧
    requestTagAliasesRefresh 100 ⟨none, none, none⟩ (initAliasSys .absent) =
      initAliasSys .absent ∧
    (requestDaysRefresh 2000 [] ⟨none, none, none⟩
      (requestDaysRefresh 1000 [] ⟨none, none, none⟩ (initDaysSys stgEmpty))).pending =
      (requestDaysRefresh 1000 [] ⟨none, none, none⟩ (initDaysSys stgEmpty)).pending ∧
    (requestTagAliasesRefresh 2000 ⟨none, none, none⟩
      (requestTagAliasesRefresh 1000 ⟨none, none, none⟩ (initAliasSys .absent))).pending =
      (requestTagAliasesRefresh 1000 ⟨none, none, none⟩ (initAliasSys .absent)).pending :=
  ⟨coordinator_throttle_and_single_inflight.1 _ (ReachDays.init stgEmpty),
   coordinator_throttle_and_single_inflight.2.1 _ (ReachAlias.init .absent),
   coordinator_throttle_and_single_inflight.2.2.1 _ 100 [] _ (by decide) (by decide),
   coordinator_throttle_and_single_inflight.2.2.2.1 _ 100 _ (by decide) (by decide),
   (coordinator_throttle_and_single_inflight.2.2.2.2.1 _ 2000 [] ⟨none, none, none⟩
     (by decide)).1,
   (coordinator_throttle_and_single_inflight.2.2.2.2.2 _ 2000 ⟨none, none, none⟩
     (by decide)).1⟩

/-! ### C8, amended -/

/-- C8 (amended): saving an alias dictionary that normalizes to zero entries
is read-equivalent to a reset — the next read returns the built-in default
set, exactly what a read after a reset returns, never an empty map — but the
persisted record remains the raw saved dictionary (reset alone persists the
defaults themselves); a read also falls back to the defaults when the stored
record is absent or malformed. -/
theorem saveEmptyAliases_reads_as_defaults :
    ∀ entries : List (Str × Str),
      normalizeAliasEntries entries = [] →
      loadTagAliases (saveTagAliases entries) = DEFAULT_TAG_ALIASES ∧
      loadTagAliases (resetTagAliases).2 = DEFAULT_TAG_ALIASES ∧
      saveTagAliases entries = StoredAliases.record entries ∧
      loadTagAliases .absent = DEFAULT_TAG_ALIASES ∧
      loadTagAliases .malformed = DEFAULT_TAG_ALIASES := by
  intro entries h
  refine ⟨?_, by decide, rfl, rfl, rfl⟩
  simp [saveTagAliases, loadTagAliases, h]

/-- C8 (amended, witness): evaluated on the empty dictionary. -/
theorem saveEmptyAliases_reads_as_defaults_witness :
    loadTagAliases (saveTagAliases []) = DEFAULT_TAG_ALIASES ∧
    loadTagAliases (resetTagAliases).2 = DEFAULT_TAG_ALIASES ∧
    saveTagAliases [] = StoredAliases.record [] ∧
    loadTagAliases .absent = DEFAULT_TAG_ALIASES ∧
    loadTagAliases .malformed = DEFAULT_TAG_ALIASES :=
  saveEmptyAliases_reads_as_defaults [] (by decide)

end AchieveDiary
